import Mathlib

set_option maxRecDepth 40000

/- Verification of the bit codec, binary prefix trie, IPv4 range decomposition and
   record pipeline of monoidic/ip-tools (src/trie.py and src/parse_rir_file.py),
   through a shallow embedding: Python ints are Nat, addresses are their integer
   values, bit sequences are List Bool, and raised exceptions are Option/Except. -/

/-- Address families, mirroring `IPVersion` in src/trie.py. -/
inductive IPVersion where
  | v4
  | v6
deriving DecidableEq

/-- Number of bytes in a packed address of the family (`addr_bytes` in
`_bools_to_ip`, src/trie.py line 34). -/
def addrBytes : IPVersion → Nat
  | .v4 => 4
  | .v6 => 16

/-- Family bit width as written inside the `Node`/`Trie` methods of src/trie.py:
`32 if addr_type == IPVersion.v4 else 128`. -/
def maxPrefixLen : IPVersion → Nat
  | .v4 => 32
  | .v6 => 128

theorem maxPrefixLen_eq (v : IPVersion) : maxPrefixLen v = addrBytes v * 8 := by
  cases v <;> rfl

/-- Big-endian packed bytes of an address value, as `ip_net.network_address.packed`
supplies them to `ip_to_bools` (src/trie.py line 25): byte `j` of an `nbytes`-wide
address is `addr / 2 ^ (8 * (nbytes - 1 - j)) % 256`. -/
def packedBytes (nbytes addr : Nat) : List Nat :=
  (List.range nbytes).map (fun j => addr / 2 ^ (8 * (nbytes - 1 - j)) % 256)

/-- MSB-first bits of one byte: `bool(byte & mask)` for the masks
`_masks = [1 << 7, ..., 1 << 0]` of src/trie.py; `byte & (1 << s) != 0` is
`Nat.testBit byte s`. -/
def byteBits (b : Nat) : List Bool :=
  (List.range 8).map (fun k => b.testBit (7 - k))

/-- Flattened MSB-first bit stream over all packed bytes, the generator
`bool(byte & mask) for byte, mask in itertools.product(packed, _masks)`. -/
def networkBits (nbytes addr : Nat) : List Bool :=
  ((packedBytes nbytes addr).map byteBits).flatten

/-- Encoder `ip_to_bools` (src/trie.py lines 20-30): the first `prefixlen` bits
(`itertools.islice(..., ip_net.prefixlen)`) of the packed address bit stream. -/
def ip_to_bools (v : IPVersion) (addr prefixlen : Nat) : List Bool :=
  (networkBits (addrBytes v) addr).take prefixlen

/-- Byte assembly `sum(bit << shift for bit, shift in zip(partial, _shifts))`
of `_bools_to_ip` (src/trie.py line 46), with `_shifts = [7, 6, ..., 0]`;
`zip` truncates to the shorter list, so a partial chunk fills the high bits. -/
def bits_to_byte (l : List Bool) : Nat :=
  ((l.zip [7, 6, 5, 4, 3, 2, 1, 0]).map (fun p => (cond p.1 1 0) * 2 ^ p.2)).sum

/-- While-loop of `_bools_to_ip` (src/trie.py lines 40-48): consume up to 8 bits
per iteration while `prefixlen <= max_prefix_len` holds at the top of the loop; an
empty chunk breaks out; exhausting the guard instead reaches Python's `for`-`else`
and raises `ValueError` (modelled by `none`). -/
def boolsToIpLoop (maxLen : Nat) : List Bool → List Nat → Nat → Option (List Nat × Nat)
  | bools, packed, prefixlen =>
    if prefixlen ≤ maxLen then
      match bools with
      | [] => some (packed, prefixlen)
      | b :: rest =>
        boolsToIpLoop maxLen ((b :: rest).drop 8)
          (packed ++ [bits_to_byte ((b :: rest).take 8)])
          (prefixlen + ((b :: rest).take 8).length)
    else none
termination_by bools _ _ => bools.length
decreasing_by
  simp
  omega

/-- Big-endian integer value of a byte list, as `ipaddress.ip_address(bytes(packed))`
interprets the packed bytes (src/trie.py line 52). -/
def bytesToNatBE : List Nat → Nat
  | [] => 0
  | b :: rest => b * 256 ^ rest.length + bytesToNatBE rest

/-- An `ipaddress.IPv4Network`/`IPv6Network` value for the purposes of the codec:
its family, the integer value of its network address, and its prefix length. -/
structure IPNet where
  version : IPVersion
  addr : Nat
  prefixlen : Nat
deriving DecidableEq

/-- Decoder `_bools_to_ip` (src/trie.py lines 33-53): run the chunking loop,
zero-pad the packed bytes to the family width (`packed += bytes(addr_bytes -
len(packed))`) and rebuild the network; `none` is the raised `ValueError`. -/
def bools_to_ip (v : IPVersion) (bools : List Bool) : Option IPNet :=
  match boolsToIpLoop (addrBytes v * 8) bools [] 0 with
  | none => none
  | some (packed, prefixlen) =>
    some ⟨v, bytesToNatBE (packed ++ List.replicate (addrBytes v - packed.length) 0), prefixlen⟩

/-- Validity of a network of a family: prefix length within the family width,
address value in range, and all host bits zero (the network address of a strict
`ip_network` is masked to its prefix). -/
def IPNet.Valid (n : IPNet) : Prop :=
  n.prefixlen ≤ addrBytes n.version * 8 ∧ n.addr < 2 ^ (addrBytes n.version * 8) ∧
    n.addr % 2 ^ (addrBytes n.version * 8 - n.prefixlen) = 0

/-- Chunking of a bit list into the bytes the `_bools_to_ip` loop appends, eight
bits at a time with a possibly partial last chunk. -/
def chunkedBytes : List Bool → List Nat
  | [] => []
  | b :: rest => bits_to_byte ((b :: rest).take 8) :: chunkedBytes ((b :: rest).drop 8)
termination_by l => l.length
decreasing_by
  simp
  omega

theorem chunkedBytes_ne_nil (l : List Bool) (h : l ≠ []) :
    chunkedBytes l = bits_to_byte (l.take 8) :: chunkedBytes (l.drop 8) := by
  match l with
  | [] => exact absurd rfl h
  | b :: rest => simp only [chunkedBytes]

theorem chunkedBytes_length (l : List Bool) : (chunkedBytes l).length = (l.length + 7) / 8 := by
  match l with
  | [] => simp [chunkedBytes]
  | b :: rest =>
    rw [chunkedBytes_ne_nil _ (by simp)]
    rw [List.length_cons, chunkedBytes_length ((b :: rest).drop 8)]
    simp only [List.length_drop, List.length_cons]
    omega
termination_by l.length
decreasing_by
  simp
  omega

theorem boolsToIpLoop_eq (maxLen : Nat) (bools : List Bool) (packed : List Nat)
    (prefixlen : Nat) (h : prefixlen + bools.length ≤ maxLen) :
    boolsToIpLoop maxLen bools packed prefixlen
      = some (packed ++ chunkedBytes bools, prefixlen + bools.length) := by
  match bools with
  | [] =>
    rw [boolsToIpLoop]
    simp only [List.length_nil] at h ⊢
    rw [if_pos (by omega)]
    simp [chunkedBytes]
  | b :: rest =>
    rw [chunkedBytes_ne_nil (b :: rest) (by simp)]
    rw [boolsToIpLoop]
    rw [if_pos (by simp only [List.length_cons] at h; omega)]
    rw [boolsToIpLoop_eq maxLen ((b :: rest).drop 8) _ _
      (by simp only [List.length_drop, List.length_take, List.length_cons] at h ⊢; omega)]
    simp only [List.length_drop, List.length_take, List.length_cons, List.append_assoc,
      List.singleton_append, Option.some.injEq, Prod.mk.injEq]
    exact ⟨trivial, by omega⟩
termination_by bools.length
decreasing_by
  simp
  omega

theorem byteBits_length (b : Nat) : (byteBits b).length = 8 := by
  simp [byteBits]

theorem networkBits_zero (a : Nat) : networkBits 0 a = [] := by
  simp [networkBits, packedBytes]

theorem div_mod_256_eq (a s t : Nat) (h : s + 8 ≤ t) :
    a / 2 ^ s % 256 = a % 2 ^ t / 2 ^ s % 256 := by
  have e : (256 : Nat) = 2 ^ 8 := by norm_num
  rw [e, Nat.div_mod_eq_mod_mul_div, Nat.div_mod_eq_mod_mul_div, ← pow_add,
    Nat.mod_mod_of_dvd _ (Nat.pow_dvd_pow 2 h)]

theorem packedBytes_succ (nb a : Nat) :
    packedBytes (nb + 1) a
      = (a / 2 ^ (8 * nb) % 256) :: packedBytes nb (a % 2 ^ (8 * nb)) := by
  unfold packedBytes
  rw [List.range_succ_eq_map, List.map_cons, List.map_map]
  have h0 : nb + 1 - 1 - 0 = nb := by omega
  rw [h0]
  congr 1
  apply List.map_congr_left
  intro j hj
  rw [List.mem_range] at hj
  have h1 : nb + 1 - 1 - Nat.succ j = nb - 1 - j := by omega
  simp only [Function.comp_apply, h1]
  exact div_mod_256_eq a (8 * (nb - 1 - j)) (8 * nb) (by omega)

theorem networkBits_succ (nb a : Nat) :
    networkBits (nb + 1) a
      = byteBits (a / 2 ^ (8 * nb) % 256) ++ networkBits nb (a % 2 ^ (8 * nb)) := by
  unfold networkBits
  rw [packedBytes_succ, List.map_cons, List.flatten_cons]

theorem networkBits_length (nb a : Nat) : (networkBits nb a).length = 8 * nb := by
  induction nb generalizing a with
  | zero => simp [networkBits_zero]
  | succ n ih =>
    rw [networkBits_succ, List.length_append, byteBits_length, ih]
    omega

theorem bits_to_byte_take_byteBits :
    ∀ b, b < 256 → ∀ p, p < 9 → b % 2 ^ (8 - p) = 0 →
      bits_to_byte ((byteBits b).take p) = b := by
  decide

theorem bits_to_byte_byteBits : ∀ b, b < 256 → bits_to_byte (byteBits b) = b := by
  decide

theorem bytesToNatBE_replicate_zero (k : Nat) : bytesToNatBE (List.replicate k 0) = 0 := by
  induction k with
  | zero => rfl
  | succ n ih => simp [List.replicate_succ, bytesToNatBE, ih]

theorem pow256_eq (n : Nat) : (256 : Nat) ^ n = 2 ^ (8 * n) := by
  rw [pow_mul]
  norm_num

theorem decode_bytes (nb : Nat) :
    ∀ a p, a < 2 ^ (8 * nb) → p ≤ 8 * nb → a % 2 ^ (8 * nb - p) = 0 →
      bytesToNatBE (chunkedBytes ((networkBits nb a).take p)
          ++ List.replicate (nb - (chunkedBytes ((networkBits nb a).take p)).length) 0)
        = a := by
  induction nb with
  | zero =>
    intro a p ha hp _
    have ha0 : a = 0 := by simpa using ha
    have hp0 : p = 0 := by omega
    subst ha0
    subst hp0
    simp [networkBits_zero, chunkedBytes, bytesToNatBE]
  | succ n ih =>
    intro a p ha hp hm
    have hpow : (0 : Nat) < 2 ^ (8 * n) := Nat.pos_pow_of_pos _ (by norm_num)
    have hiLt : a / 2 ^ (8 * n) < 256 := by
      rw [Nat.div_lt_iff_lt_mul hpow]
      calc a < 2 ^ (8 * (n + 1)) := ha
        _ = 256 * 2 ^ (8 * n) := by rw [show 8 * (n + 1) = 8 + 8 * n by omega, pow_add]; norm_num
    have hmod : a / 2 ^ (8 * n) % 256 = a / 2 ^ (8 * n) := Nat.mod_eq_of_lt hiLt
    have hsplit : a = a / 2 ^ (8 * n) * 2 ^ (8 * n) + a % 2 ^ (8 * n) := by
      rw [Nat.mul_comm]
      exact (Nat.div_add_mod a (2 ^ (8 * n))).symm
    rw [networkBits_succ, hmod]
    by_cases h8 : 8 ≤ p
    · have htake : ((byteBits (a / 2 ^ (8 * n)) ++ networkBits n (a % 2 ^ (8 * n))).take p)
          = byteBits (a / 2 ^ (8 * n)) ++ (networkBits n (a % 2 ^ (8 * n))).take (p - 8) := by
        rw [List.take_append_eq_append_take, byteBits_length,
          List.take_of_length_le (by rw [byteBits_length]; omega)]
      rw [htake]
      have hne : byteBits (a / 2 ^ (8 * n)) ++ (networkBits n (a % 2 ^ (8 * n))).take (p - 8) ≠ [] := by
        intro hempty
        have := congrArg List.length hempty
        simp [byteBits_length] at this
      rw [chunkedBytes_ne_nil _ hne]
      have ht8 : (byteBits (a / 2 ^ (8 * n)) ++ (networkBits n (a % 2 ^ (8 * n))).take (p - 8)).take 8
          = byteBits (a / 2 ^ (8 * n)) := by
        rw [List.take_append_eq_append_take, byteBits_length, Nat.sub_self, List.take_zero,
          List.append_nil, List.take_of_length_le (le_of_eq (byteBits_length _))]
      have hd8 : (byteBits (a / 2 ^ (8 * n)) ++ (networkBits n (a % 2 ^ (8 * n))).take (p - 8)).drop 8
          = (networkBits n (a % 2 ^ (8 * n))).take (p - 8) := by
        rw [List.drop_append_eq_append_drop, byteBits_length, Nat.sub_self, List.drop_zero,
          List.drop_eq_nil_of_le (le_of_eq (byteBits_length _)), List.nil_append]
      rw [ht8, hd8, bits_to_byte_byteBits _ hiLt]
      have hloLt : a % 2 ^ (8 * n) < 2 ^ (8 * n) := Nat.mod_lt _ hpow
      have hlop : p - 8 ≤ 8 * n := by omega
      have hlom : a % 2 ^ (8 * n) % 2 ^ (8 * n - (p - 8)) = 0 := by
        rw [Nat.mod_mod_of_dvd _ (Nat.pow_dvd_pow 2 (by omega))]
        rw [show 8 * n - (p - 8) = 8 * (n + 1) - p by omega]
        exact hm
      have hrec := ih (a % 2 ^ (8 * n)) (p - 8) hloLt hlop hlom
      have hcbLen : (chunkedBytes ((networkBits n (a % 2 ^ (8 * n))).take (p - 8))).length ≤ n := by
        rw [chunkedBytes_length, List.length_take, networkBits_length]
        have : (p - 8) ⊓ (8 * n) ≤ 8 * n := Nat.min_le_right _ _
        omega
      rw [List.cons_append, bytesToNatBE, List.length_cons]
      rw [show n + 1 - ((chunkedBytes ((networkBits n (a % 2 ^ (8 * n))).take (p - 8))).length + 1)
          = n - (chunkedBytes ((networkBits n (a % 2 ^ (8 * n))).take (p - 8))).length by omega]
      rw [List.length_append, List.length_replicate]
      rw [show (chunkedBytes ((networkBits n (a % 2 ^ (8 * n))).take (p - 8))).length
          + (n - (chunkedBytes ((networkBits n (a % 2 ^ (8 * n))).take (p - 8))).length) = n by omega]
      rw [hrec, pow256_eq]
      exact hsplit.symm
    · have hple : p ≤ 8 := by omega
      have htake : ((byteBits (a / 2 ^ (8 * n)) ++ networkBits n (a % 2 ^ (8 * n))).take p)
          = (byteBits (a / 2 ^ (8 * n))).take p := by
        exact List.take_append_of_le_length (by rw [byteBits_length]; omega)
      rw [htake]
      by_cases hp0 : p = 0
      · subst hp0
        simp only [List.take_zero, chunkedBytes, List.length_nil, Nat.sub_zero,
          List.nil_append]
        rw [bytesToNatBE_replicate_zero]
        have h' : a % 2 ^ (8 * (n + 1)) = a := Nat.mod_eq_of_lt ha
        simp only [Nat.sub_zero] at hm
        omega
      · have hlo0 : a % 2 ^ (8 * n) = 0 := by
          have hdvd : (2 : Nat) ^ (8 * n) ∣ 2 ^ (8 * (n + 1) - p) := Nat.pow_dvd_pow 2 (by omega)
          have h' := Nat.mod_mod_of_dvd a hdvd
          rw [hm, Nat.zero_mod] at h'
          exact h'.symm
        have hdvd_a : 2 ^ (8 * (n + 1) - p) ∣ a := Nat.dvd_of_mod_eq_zero hm
        have h2 : 2 ^ (8 * n) * 2 ^ (8 - p) ∣ a := by
          rw [← pow_add, show 8 * n + (8 - p) = 8 * (n + 1) - p by omega]
          exact hdvd_a
        have hdvd_lo : 2 ^ (8 * n) ∣ a := Nat.dvd_of_mod_eq_zero hlo0
        have hhm : a / 2 ^ (8 * n) % 2 ^ (8 - p) = 0 :=
          Nat.mod_eq_zero_of_dvd ((Nat.dvd_div_iff hdvd_lo).mpr h2)
        have htpLen : ((byteBits (a / 2 ^ (8 * n))).take p).length = p := by
          rw [List.length_take, byteBits_length]
          omega
        have hne : (byteBits (a / 2 ^ (8 * n))).take p ≠ [] := by
          intro hempty
          have := congrArg List.length hempty
          rw [htpLen] at this
          simp at this
          exact hp0 this
        rw [chunkedBytes_ne_nil _ hne]
        rw [List.take_of_length_le (by rw [htpLen]; omega),
          List.drop_eq_nil_of_le (by rw [htpLen]; omega)]
        rw [bits_to_byte_take_byteBits _ hiLt p (by omega) hhm]
        simp only [chunkedBytes, List.length_cons, List.length_nil]
        rw [List.cons_append, List.nil_append, bytesToNatBE]
        rw [bytesToNatBE_replicate_zero, List.length_replicate]
        rw [show n + 1 - (0 + 1) = n by omega, pow256_eq, Nat.add_zero]
        conv_rhs => rw [hsplit, hlo0, Nat.add_zero]

theorem round_trip (v : IPVersion) (a p : Nat) (hp : p ≤ addrBytes v * 8)
    (ha : a < 2 ^ (addrBytes v * 8)) (hm : a % 2 ^ (addrBytes v * 8 - p) = 0) :
    bools_to_ip v (ip_to_bools v a p) = some ⟨v, a, p⟩ := by
  have hmul : addrBytes v * 8 = 8 * addrBytes v := Nat.mul_comm _ _
  rw [hmul] at hp ha hm
  unfold bools_to_ip ip_to_bools
  have hlen : ((networkBits (addrBytes v) a).take p).length = p := by
    rw [List.length_take, networkBits_length]
    omega
  rw [boolsToIpLoop_eq _ _ _ _ (by rw [Nat.zero_add, hlen]; omega)]
  simp only [List.nil_append, Nat.zero_add, hlen]
  rw [decode_bytes (addrBytes v) a p ha hp hm]

/-- C1: round trip of the bit codec: for every valid network N of a family
(IPv4 with prefix length 0..32, IPv6 with prefix length 0..128), decoding the
encoded bit sequence returns N exactly, `_bools_to_ip(family, ip_to_bools(N)) ==
N`, preserving both the base address and the prefix length. -/
theorem claim_C1_round_trip (n : IPNet) (h : n.Valid) :
    bools_to_ip n.version (ip_to_bools n.version n.addr n.prefixlen) = some n := by
  cases n with
  | mk v a p => exact round_trip v a p h.1 h.2.1 h.2.2

theorem claim_C1_round_trip_witness :
    (IPNet.Valid ⟨.v4, 3232235776, 24⟩) ∧
      bools_to_ip .v4 (ip_to_bools .v4 3232235776 24) = some ⟨.v4, 3232235776, 24⟩ :=
  ⟨⟨by decide, by decide, by decide⟩,
    claim_C1_round_trip ⟨.v4, 3232235776, 24⟩ ⟨by decide, by decide, by decide⟩⟩

/-- Trie node of src/trie.py (`Node.__init__`, lines 64-68): nullable left and
right children and a value defaulting to the falsy `False`; values are modelled
as Nat with Python truthiness `value != 0` (`False == 0` in Python). -/
inductive Node where
  | mk (left : Option Node) (right : Option Node) (value : Nat)

def Node.left : Node → Option Node
  | .mk l _ _ => l

def Node.right : Node → Option Node
  | .mk _ r _ => r

def Node.value : Node → Nat
  | .mk _ _ v => v

/-- Errors raised by the trie methods of src/trie.py, split by message:
`prefixLen` is the ValueError `'prefix over N bits'` of insert and
`_get_entries`, `conflict` is the `'conflict inserting ...'` ValueError of
insert with `error_on_conflict`, `tooDeep` is the `'Too deep in trie'`
ValueError of `_merge_entries`. -/
inductive TrieErr where
  | prefixLen
  | conflict
  | tooDeep
deriving DecidableEq

/-- Loop of `Trie.insert` (src/trie.py lines 112-136): walk bit by bit with the
enumerate index; an index over the family width raises; a truthy value at the
current node before the bits are exhausted is the conflict rule (raise under
ERROR mode, drop the insert under SILENT mode); missing children are created
empty; when the bits are exhausted the final node drops its children and takes
the value. Python mutates in place; the model rebuilds the tree, and a
SILENT-mode conflict returns the subtree unchanged (identical to the in-place
outcome, since a conflicting terminal can never sit inside a subtree freshly
created by the same call). -/
def insertLoop (maxLen value : Nat) (eoc : Bool) : Node → List Bool → Nat → Except TrieErr Node
  | _, [], _ => .ok (.mk none none value)
  | n, b :: rest, idx =>
    if maxLen < idx then .error .prefixLen
    else if n.value ≠ 0 then
      (if eoc then .error .conflict else .ok n)
    else
      match insertLoop maxLen value eoc ((if b then n.right else n.left).getD (.mk none none 0))
          rest (idx + 1) with
      | .error e => .error e
      | .ok c => .ok (if b then .mk n.left (some c) n.value else .mk (some c) n.right n.value)

/-- Method `Trie.insert` applied to a trie with root `t`: the walk starts at the
root with enumerate index 0 and the family width `32 if addr_type ==
IPVersion.v4 else 128`. -/
def trieInsert (v : IPVersion) (t : Node) (bits : List Bool) (value : Nat) (eoc : Bool) :
    Except TrieErr Node :=
  insertLoop (maxPrefixLen v) value eoc t bits 0

/-- Fresh root `Node()` of `Trie.__init__` (src/trie.py line 110). -/
def emptyTrie : Node := .mk none none 0

/-- Generator `Node._get_entries` (src/trie.py lines 74-84), collected into a
list: depth over the family width raises; a truthy value yields the
accumulated bit path and stops; otherwise the left child is visited before the
right, extending the path with False resp. True. -/
def entriesGo (maxLen : Nat) : Node → List Bool → Except TrieErr (List (List Bool × Nat))
  | .mk l r v, prev =>
    if maxLen < prev.length then .error .prefixLen
    else if v ≠ 0 then .ok [(prev, v)]
    else
      match (match l with
             | none => Except.ok []
             | some c => entriesGo maxLen c (prev ++ [false])) with
      | .error e => .error e
      | .ok le =>
        match (match r with
               | none => Except.ok []
               | some c => entriesGo maxLen c (prev ++ [true])) with
        | .error e => .error e
        | .ok re => .ok (le ++ re)

/-- Method `Trie._get_entries` (src/trie.py lines 144-145): decode every
collected bit path with `_bools_to_ip`. -/
def trieEntries (v : IPVersion) (t : Node) : Except TrieErr (List (Option IPNet × Nat)) :=
  (entriesGo (maxPrefixLen v) t []).map (fun es => es.map (fun e => (bools_to_ip v e.1, e.2)))

/-- Method `Node._merge_entries` (src/trie.py lines 86-104): depth over the
family width raises `'Too deep in trie'`; children are merged first (left then
right); afterwards, if both children exist and the left child's value is truthy
and equal to the right child's value, both children are dropped and the node
takes that value. -/
def mergeGo (maxLen : Nat) : Node → Nat → Except TrieErr Node
  | .mk l r v, curLen =>
    if maxLen < curLen then .error .tooDeep
    else
      match (match l with
             | none => Except.ok none
             | some c => (mergeGo maxLen c (curLen + 1)).map some) with
      | .error e => .error e
      | .ok l' =>
        match (match r with
               | none => Except.ok none
               | some c => (mergeGo maxLen c (curLen + 1)).map some) with
        | .error e => .error e
        | .ok r' =>
          match l', r' with
          | some lc, some rc =>
            if lc.value ≠ 0 ∧ lc.value = rc.value then .ok (.mk none none lc.value)
            else .ok (.mk l' r' v)
          | _, _ => .ok (.mk l' r' v)

/-- Tree produced by inserting a single bit path into an empty trie: a chain of
empty internal nodes ending in a terminal carrying the value. -/
def pathNode : List Bool → Nat → Node
  | [], v => .mk none none v
  | b :: rest, v =>
    if b then .mk none (some (pathNode rest v)) 0 else .mk (some (pathNode rest v)) none 0

/-- Chain of empty internal nodes along a bit path, ending at a given subtree. -/
def extendPath : List Bool → Node → Node
  | [], core => core
  | b :: rest, core =>
    if b then .mk none (some (extendPath rest core)) 0
    else .mk (some (extendPath rest core)) none 0

theorem extendPath_leaf (bits : List Bool) (v : Nat) :
    extendPath bits (.mk none none v) = pathNode bits v := by
  induction bits with
  | nil => rfl
  | cons b rest ih => cases b <;> simp [extendPath, pathNode, ih]

theorem insertLoop_empty (maxLen v : Nat) (eoc : Bool) :
    ∀ bits idx, idx + bits.length ≤ maxLen + 1 →
      insertLoop maxLen v eoc (.mk none none 0) bits idx = .ok (pathNode bits v) := by
  intro bits
  induction bits with
  | nil =>
    intro idx h
    rfl
  | cons b rest ih =>
    intro idx h
    simp only [List.length_cons] at h
    have hidx : ¬ maxLen < idx := by omega
    cases b with
    | false =>
      simp [insertLoop, hidx, Node.value, Node.left, Node.right,
        ih (idx + 1) (by omega), pathNode]
    | true =>
      simp [insertLoop, hidx, Node.value, Node.left, Node.right,
        ih (idx + 1) (by omega), pathNode]

theorem entriesGo_pathNode (maxLen v : Nat) (hv : v ≠ 0) :
    ∀ bits prev, prev.length + bits.length ≤ maxLen →
      entriesGo maxLen (pathNode bits v) prev = .ok [(prev ++ bits, v)] := by
  intro bits
  induction bits with
  | nil =>
    intro prev h
    simp only [List.length_nil, Nat.add_zero] at h
    simp [pathNode, entriesGo, hv, Nat.not_lt.mpr h]
  | cons b rest ih =>
    intro prev h
    simp only [List.length_cons] at h
    have hd : ¬ maxLen < prev.length := by omega
    cases b with
    | false =>
      simp [pathNode, entriesGo, hd, ih (prev ++ [false]) (by simp; omega)]
    | true =>
      simp [pathNode, entriesGo, hd, ih (prev ++ [true]) (by simp; omega)]

theorem insertLoop_conflict_error (maxLen v2 vA : Nat) (hvA : vA ≠ 0) (e : Bool)
    (ext : List Bool) :
    ∀ bitsA idx, idx + bitsA.length ≤ maxLen →
      insertLoop maxLen v2 true (pathNode bitsA vA) (bitsA ++ e :: ext) idx
        = .error .conflict := by
  intro bitsA
  induction bitsA with
  | nil =>
    intro idx h
    simp only [List.length_nil, Nat.add_zero] at h
    simp [pathNode, insertLoop, Nat.not_lt.mpr h, Node.value, hvA]
  | cons b rest ih =>
    intro idx h
    simp only [List.length_cons] at h
    have hidx : ¬ maxLen < idx := by omega
    cases b with
    | false =>
      simp [pathNode, insertLoop, hidx, Node.value, Node.left, Node.right,
        ih (idx + 1) (by omega)]
    | true =>
      simp [pathNode, insertLoop, hidx, Node.value, Node.left, Node.right,
        ih (idx + 1) (by omega)]

theorem insertLoop_conflict_silent (maxLen v2 vA : Nat) (hvA : vA ≠ 0) (e : Bool)
    (ext : List Bool) :
    ∀ bitsA idx, idx + bitsA.length ≤ maxLen →
      insertLoop maxLen v2 false (pathNode bitsA vA) (bitsA ++ e :: ext) idx
        = .ok (pathNode bitsA vA) := by
  intro bitsA
  induction bitsA with
  | nil =>
    intro idx h
    simp only [List.length_nil, Nat.add_zero] at h
    simp [pathNode, insertLoop, Nat.not_lt.mpr h, Node.value, hvA]
  | cons b rest ih =>
    intro idx h
    simp only [List.length_cons] at h
    have hidx : ¬ maxLen < idx := by omega
    cases b with
    | false =>
      simp [pathNode, insertLoop, hidx, Node.value, Node.left, Node.right,
        ih (idx + 1) (by omega)]
    | true =>
      simp [pathNode, insertLoop, hidx, Node.value, Node.left, Node.right,
        ih (idx + 1) (by omega)]

theorem insertLoop_prune (maxLen v vB : Nat) (eoc : Bool) (ext : List Bool) :
    ∀ bitsA idx, idx + bitsA.length ≤ maxLen + 1 →
      insertLoop maxLen v eoc (pathNode (bitsA ++ ext) vB) bitsA idx
        = .ok (pathNode bitsA v) := by
  intro bitsA
  induction bitsA with
  | nil =>
    intro idx h
    rfl
  | cons b rest ih =>
    intro idx h
    simp only [List.length_cons] at h
    have hidx : ¬ maxLen < idx := by omega
    cases b with
    | false =>
      simp [pathNode, insertLoop, List.cons_append, hidx, Node.value, Node.left,
        Node.right, ih (idx + 1) (by omega)]
    | true =>
      simp [pathNode, insertLoop, List.cons_append, hidx, Node.value, Node.left,
        Node.right, ih (idx + 1) (by omega)]

theorem insertLoop_sibling (maxLen v1 v2 : Nat) (eoc : Bool) :
    ∀ pre idx, idx + pre.length + 1 ≤ maxLen + 1 →
      insertLoop maxLen v2 eoc (pathNode (pre ++ [false]) v1) (pre ++ [true]) idx
        = .ok (extendPath pre (.mk (some (.mk none none v1)) (some (.mk none none v2)) 0)) := by
  intro pre
  induction pre with
  | nil =>
    intro idx h
    simp only [List.length_nil] at h
    have hidx : ¬ maxLen < idx := by omega
    simp [pathNode, insertLoop, extendPath, hidx, Node.value, Node.left, Node.right]
  | cons b rest ih =>
    intro idx h
    simp only [List.length_cons] at h
    have hidx : ¬ maxLen < idx := by omega
    cases b with
    | false =>
      simp [pathNode, insertLoop, extendPath, List.cons_append, hidx, Node.value,
        Node.left, Node.right, ih (idx + 1) (by omega)]
    | true =>
      simp [pathNode, insertLoop, extendPath, List.cons_append, hidx, Node.value,
        Node.left, Node.right, ih (idx + 1) (by omega)]

/-- C2: insert precedence asymmetry, for every strict-prefix pair of bit paths A
and B = A ++ ext within the family width and truthy values: inserting A then B
in SILENT mode returns the trie unchanged (B is discarded) and the entries are
exactly A; in ERROR mode the second insert raises the conflict error; and
inserting B then A also leaves only A, since completing a bit path discards the
subtree (previously inserted longer prefixes) below the final node. -/
theorem claim_C2_insert_precedence (ver : IPVersion) (bitsA ext : List Bool) (vA vB : Nat)
    (hvA : vA ≠ 0) (hext : ext ≠ []) (hlen : bitsA.length + ext.length ≤ maxPrefixLen ver) :
    trieInsert ver emptyTrie bitsA vA false = .ok (pathNode bitsA vA) ∧
    trieInsert ver (pathNode bitsA vA) (bitsA ++ ext) vB false = .ok (pathNode bitsA vA) ∧
    trieInsert ver (pathNode bitsA vA) (bitsA ++ ext) vB true = .error .conflict ∧
    trieInsert ver emptyTrie (bitsA ++ ext) vB false = .ok (pathNode (bitsA ++ ext) vB) ∧
    trieInsert ver (pathNode (bitsA ++ ext) vB) bitsA vA false = .ok (pathNode bitsA vA) ∧
    entriesGo (maxPrefixLen ver) (pathNode bitsA vA) [] = .ok [(bitsA, vA)] := by
  obtain ⟨e, ext', rfl⟩ := List.exists_cons_of_ne_nil hext
  simp only [List.length_cons] at hlen
  refine ⟨?_, ?_, ?_, ?_, ?_, ?_⟩
  · exact insertLoop_empty _ _ _ bitsA 0 (by omega)
  · exact insertLoop_conflict_silent _ _ _ hvA e ext' bitsA 0 (by omega)
  · exact insertLoop_conflict_error _ _ _ hvA e ext' bitsA 0 (by omega)
  · exact insertLoop_empty _ _ _ (bitsA ++ e :: ext') 0 (by simp; omega)
  · exact insertLoop_prune _ _ _ _ (e :: ext') bitsA 0 (by omega)
  · have := entriesGo_pathNode (maxPrefixLen ver) vA hvA bitsA [] (by simp; omega)
    simpa using this

theorem claim_C2_insert_precedence_witness :
    ((1 : Nat) ≠ 0 ∧ ([false] : List Bool) ≠ [] ∧
      ([true] : List Bool).length + ([false] : List Bool).length ≤ maxPrefixLen .v4) ∧
    (trieInsert .v4 emptyTrie [true] 1 false = .ok (pathNode [true] 1) ∧
      trieInsert .v4 (pathNode [true] 1) ([true] ++ [false]) 2 false = .ok (pathNode [true] 1) ∧
      trieInsert .v4 (pathNode [true] 1) ([true] ++ [false]) 2 true = .error .conflict ∧
      trieInsert .v4 emptyTrie ([true] ++ [false]) 2 false = .ok (pathNode ([true] ++ [false]) 2) ∧
      trieInsert .v4 (pathNode ([true] ++ [false]) 2) [true] 1 false = .ok (pathNode [true] 1) ∧
      entriesGo (maxPrefixLen .v4) (pathNode [true] 1) [] = .ok [([true], 1)]) :=
  ⟨⟨by decide, by decide, by decide⟩,
    claim_C2_insert_precedence .v4 [true] [false] 1 2 (by decide) (by decide) (by decide)⟩

/-- C9: exact-duplicate inserts never conflict: for every family, bit path
within the family width and truthy values v1 then v2, inserting the same path
twice raises no conflict even in ERROR mode (the conflict check applies only at
strict ancestors of the final node), and afterwards the final node holds v2
with no children (the path tree ends in the childless terminal `.mk none none
v2`), so the entries are exactly the path with v2. -/
theorem claim_C9_duplicate_insert (ver : IPVersion) (bits : List Bool) (v1 v2 : Nat)
    (hv1 : v1 ≠ 0) (hv2 : v2 ≠ 0) (hlen : bits.length ≤ maxPrefixLen ver) :
    trieInsert ver emptyTrie bits v1 true = .ok (pathNode bits v1) ∧
    trieInsert ver (pathNode bits v1) bits v2 true = .ok (pathNode bits v2) ∧
    pathNode bits v2 = extendPath bits (.mk none none v2) ∧
    entriesGo (maxPrefixLen ver) (pathNode bits v2) [] = .ok [(bits, v2)] := by
  refine ⟨?_, ?_, ?_, ?_⟩
  · exact insertLoop_empty _ _ _ bits 0 (by omega)
  · have := insertLoop_prune (maxPrefixLen ver) v2 v1 true [] bits 0 (by omega)
    rw [List.append_nil] at this
    exact this
  · exact (extendPath_leaf bits v2).symm
  · have := entriesGo_pathNode (maxPrefixLen ver) v2 hv2 bits [] (by simp; omega)
    simpa using this

theorem claim_C9_duplicate_insert_witness :
    ((7 : Nat) ≠ 0 ∧ (9 : Nat) ≠ 0 ∧ ([true, true] : List Bool).length ≤ maxPrefixLen .v6) ∧
    (trieInsert .v6 emptyTrie [true, true] 7 true = .ok (pathNode [true, true] 7) ∧
      trieInsert .v6 (pathNode [true, true] 7) [true, true] 9 true = .ok (pathNode [true, true] 9) ∧
      pathNode [true, true] 9 = extendPath [true, true] (.mk none none 9) ∧
      entriesGo (maxPrefixLen .v6) (pathNode [true, true] 9) [] = .ok [([true, true], 9)]) :=
  ⟨⟨by decide, by decide, by decide⟩,
    claim_C9_duplicate_insert .v6 [true, true] 7 9 (by decide) (by decide) (by decide)⟩

theorem mergeGo_deep (maxLen : Nat) (n : Node) (d : Nat) (hcond : maxLen < d) :
    mergeGo maxLen n d = .error .tooDeep := by
  cases n with
  | mk l r v => cases l <;> cases r <;> simp [mergeGo, hcond]

theorem mergeGo_le (maxLen : Nat) (n : Node) (d : Nat) (n' : Node)
    (h : mergeGo maxLen n d = .ok n') : d ≤ maxLen := by
  by_contra hc
  rw [mergeGo_deep maxLen n d (by omega)] at h
  exact Except.noConfusion h

theorem mergeGo_leaf (maxLen v d : Nat) (h : ¬ maxLen < d) :
    mergeGo maxLen (.mk none none v) d = .ok (.mk none none v) := by
  simp [mergeGo, h]

theorem mergeGo_left (maxLen : Nat) (cl : Node) (v d : Nat) (hd : ¬ maxLen < d)
    (rl : Node) (hl : mergeGo maxLen cl (d + 1) = .ok rl) :
    mergeGo maxLen (.mk (some cl) none v) d = .ok (.mk (some rl) none v) := by
  simp [mergeGo, hd, hl, Except.map]

theorem mergeGo_right (maxLen : Nat) (cr : Node) (v d : Nat) (hd : ¬ maxLen < d)
    (rr : Node) (hr : mergeGo maxLen cr (d + 1) = .ok rr) :
    mergeGo maxLen (.mk none (some cr) v) d = .ok (.mk none (some rr) v) := by
  simp [mergeGo, hd, hr, Except.map]

theorem mergeGo_both (maxLen : Nat) (cl cr : Node) (v d : Nat) (hd : ¬ maxLen < d)
    (rl rr : Node) (hl : mergeGo maxLen cl (d + 1) = .ok rl)
    (hr : mergeGo maxLen cr (d + 1) = .ok rr) :
    mergeGo maxLen (.mk (some cl) (some cr) v) d
      = if rl.value ≠ 0 ∧ rl.value = rr.value then .ok (.mk none none rl.value)
        else .ok (.mk (some rl) (some rr) v) := by
  simp [mergeGo, hd, hl, hr, Except.map]

theorem mergeGo_extendPath (maxLen : Nat) (core core' : Node) :
    ∀ bits d, mergeGo maxLen core (d + bits.length) = .ok core' →
      mergeGo maxLen (extendPath bits core) d = .ok (extendPath bits core') := by
  intro bits
  induction bits with
  | nil =>
    intro d h
    simpa [extendPath] using h
  | cons b rest ih =>
    intro d h
    have hle : d + (rest.length + 1) ≤ maxLen := by
      have := mergeGo_le maxLen core (d + (b :: rest).length) core' h
      simp only [List.length_cons] at this
      omega
    have hrec := ih (d + 1)
      (by rw [show d + 1 + rest.length = d + (rest.length + 1) by omega]
          simpa using h)
    cases b with
    | false =>
      have he : extendPath (false :: rest) core = .mk (some (extendPath rest core)) none 0 := rfl
      have he' : extendPath (false :: rest) core' = .mk (some (extendPath rest core')) none 0 := rfl
      rw [he, he', mergeGo_left maxLen _ 0 d (by omega) _ hrec]
    | true =>
      have he : extendPath (true :: rest) core = .mk none (some (extendPath rest core)) 0 := rfl
      have he' : extendPath (true :: rest) core' = .mk none (some (extendPath rest core')) 0 := rfl
      rw [he, he', mergeGo_right maxLen _ 0 d (by omega) _ hrec]

theorem mergeGo_twoLeaf_eq (maxLen d v1 : Nat) (hv1 : v1 ≠ 0) (h : d + 1 ≤ maxLen) :
    mergeGo maxLen (.mk (some (.mk none none v1)) (some (.mk none none v1)) 0) d
      = .ok (.mk none none v1) := by
  rw [mergeGo_both maxLen _ _ 0 d (by omega) _ _
    (mergeGo_leaf maxLen v1 (d + 1) (by omega)) (mergeGo_leaf maxLen v1 (d + 1) (by omega))]
  rw [if_pos ⟨hv1, rfl⟩]
  rfl

theorem mergeGo_twoLeaf_ne (maxLen d v1 v2 : Nat) (hne : v1 ≠ v2) (h : d + 1 ≤ maxLen) :
    mergeGo maxLen (.mk (some (.mk none none v1)) (some (.mk none none v2)) 0) d
      = .ok (.mk (some (.mk none none v1)) (some (.mk none none v2)) 0) := by
  rw [mergeGo_both maxLen _ _ 0 d (by omega) _ _
    (mergeGo_leaf maxLen v1 (d + 1) (by omega)) (mergeGo_leaf maxLen v2 (d + 1) (by omega))]
  rw [if_neg (fun hc => hne hc.2)]

theorem entriesGo_left (maxLen : Nat) (cl : Node) (prev : List Bool)
    (hd : ¬ maxLen < prev.length) (res : List (List Bool × Nat))
    (hl : entriesGo maxLen cl (prev ++ [false]) = .ok res) :
    entriesGo maxLen (.mk (some cl) none 0) prev = .ok res := by
  simp [entriesGo, hd, hl]

theorem entriesGo_right (maxLen : Nat) (cr : Node) (prev : List Bool)
    (hd : ¬ maxLen < prev.length) (res : List (List Bool × Nat))
    (hr : entriesGo maxLen cr (prev ++ [true]) = .ok res) :
    entriesGo maxLen (.mk none (some cr) 0) prev = .ok res := by
  simp [entriesGo, hd, hr]

theorem entriesGo_extendPath (maxLen : Nat) (core : Node) :
    ∀ bits prev res, prev.length + bits.length ≤ maxLen →
      entriesGo maxLen core (prev ++ bits) = .ok res →
      entriesGo maxLen (extendPath bits core) prev = .ok res := by
  intro bits
  induction bits with
  | nil =>
    intro prev res h hE
    simpa [extendPath] using hE
  | cons b rest ih =>
    intro prev res h hE
    simp only [List.length_cons] at h
    cases b with
    | false =>
      have he : extendPath (false :: rest) core = .mk (some (extendPath rest core)) none 0 := rfl
      have hlen2 : (prev ++ [false]).length + rest.length ≤ maxLen := by
        simp only [List.length_append, List.length_cons, List.length_nil]
        omega
      have hE2 : entriesGo maxLen core ((prev ++ [false]) ++ rest) = .ok res := by
        rw [List.append_assoc, List.singleton_append]
        exact hE
      rw [he]
      exact entriesGo_left maxLen _ prev (by omega) res (ih (prev ++ [false]) res hlen2 hE2)
    | true =>
      have he : extendPath (true :: rest) core = .mk none (some (extendPath rest core)) 0 := rfl
      have hlen2 : (prev ++ [true]).length + rest.length ≤ maxLen := by
        simp only [List.length_append, List.length_cons, List.length_nil]
        omega
      have hE2 : entriesGo maxLen core ((prev ++ [true]) ++ rest) = .ok res := by
        rw [List.append_assoc, List.singleton_append]
        exact hE
      rw [he]
      exact entriesGo_right maxLen _ prev (by omega) res (ih (prev ++ [true]) res hlen2 hE2)

theorem entriesGo_twoLeaf (maxLen v1 v2 : Nat) (hv1 : v1 ≠ 0) (hv2 : v2 ≠ 0)
    (prev : List Bool) (h : prev.length + 1 ≤ maxLen) :
    entriesGo maxLen (.mk (some (.mk none none v1)) (some (.mk none none v2)) 0) prev
      = .ok [(prev ++ [false], v1), (prev ++ [true], v2)] := by
  have hd1 : ¬ maxLen < prev.length + 1 := by omega
  have hd0 : ¬ maxLen < prev.length := by omega
  simp [entriesGo, hv1, hv2, hd1, hd0]

/-- C3: merge collapses a node's two children exactly in the equal-value
terminal-leaf case: inserting 10.0.0.0/25 (address 167772160) and 10.0.0.128/25
(address 167772288) with the same truthy value X and merging leaves exactly the
single entry 10.0.0.0/24 with X; with distinct truthy values X and Y, both /25
entries remain unchanged after the merge. -/
theorem claim_C3_merge_collapse (X Y : Nat) (hX : X ≠ 0) (hY : Y ≠ 0) :
    ((trieInsert .v4 emptyTrie (ip_to_bools .v4 167772160 25) X false).bind (fun t1 =>
      (trieInsert .v4 t1 (ip_to_bools .v4 167772288 25) X false).bind (fun t2 =>
      (mergeGo (maxPrefixLen .v4) t2 0).bind (fun m =>
      trieEntries .v4 m)))) = .ok [(some ⟨.v4, 167772160, 24⟩, X)] ∧
    (X ≠ Y →
      ((trieInsert .v4 emptyTrie (ip_to_bools .v4 167772160 25) X false).bind (fun t1 =>
        (trieInsert .v4 t1 (ip_to_bools .v4 167772288 25) Y false).bind (fun t2 =>
        (mergeGo (maxPrefixLen .v4) t2 0).bind (fun m =>
        trieEntries .v4 m))))
        = .ok [(some ⟨.v4, 167772160, 25⟩, X), (some ⟨.v4, 167772288, 25⟩, Y)]) := by
  have ea : ip_to_bools .v4 167772160 25 = ip_to_bools .v4 167772160 24 ++ [false] := by decide
  have eb : ip_to_bools .v4 167772288 25 = ip_to_bools .v4 167772160 24 ++ [true] := by decide
  have h24 : (0 : Nat) + (ip_to_bools .v4 167772160 24).length = 24 := by decide
  have hIns1 : ∀ V, trieInsert .v4 emptyTrie (ip_to_bools .v4 167772160 24 ++ [false]) V false
      = .ok (pathNode (ip_to_bools .v4 167772160 24 ++ [false]) V) :=
    fun V => insertLoop_empty _ _ _ _ 0 (by decide)
  have hSib : ∀ V W, trieInsert .v4 (pathNode (ip_to_bools .v4 167772160 24 ++ [false]) V)
      (ip_to_bools .v4 167772160 24 ++ [true]) W false
      = .ok (extendPath (ip_to_bools .v4 167772160 24)
          (.mk (some (.mk none none V)) (some (.mk none none W)) 0)) :=
    fun V W => insertLoop_sibling _ V W false _ 0 (by decide)
  have hDec24 : bools_to_ip .v4 (ip_to_bools .v4 167772160 24) = some ⟨.v4, 167772160, 24⟩ :=
    round_trip .v4 167772160 24 (by decide) (by decide) (by decide)
  have hDec25a : bools_to_ip .v4 (ip_to_bools .v4 167772160 25) = some ⟨.v4, 167772160, 25⟩ :=
    round_trip .v4 167772160 25 (by decide) (by decide) (by decide)
  have hDec25b : bools_to_ip .v4 (ip_to_bools .v4 167772288 25) = some ⟨.v4, 167772288, 25⟩ :=
    round_trip .v4 167772288 25 (by decide) (by decide) (by decide)
  constructor
  · have hM1 := mergeGo_extendPath (maxPrefixLen .v4)
      (.mk (some (.mk none none X)) (some (.mk none none X)) 0) (.mk none none X)
      (ip_to_bools .v4 167772160 24) 0
      (by rw [h24]; exact mergeGo_twoLeaf_eq _ 24 X hX (by decide))
    rw [extendPath_leaf] at hM1
    have hE1 : trieEntries .v4 (pathNode (ip_to_bools .v4 167772160 24) X)
        = .ok [(some ⟨.v4, 167772160, 24⟩, X)] := by
      unfold trieEntries
      rw [entriesGo_pathNode (maxPrefixLen .v4) X hX (ip_to_bools .v4 167772160 24) []
        (by decide)]
      simp [Except.map, hDec24]
    rw [ea, eb, hIns1 X]
    simp only [Except.bind]
    rw [hSib X X]
    simp only [Except.bind]
    rw [hM1]
    simp only [Except.bind]
    exact hE1
  · intro hXY
    have hM2 := mergeGo_extendPath (maxPrefixLen .v4)
      (.mk (some (.mk none none X)) (some (.mk none none Y)) 0)
      (.mk (some (.mk none none X)) (some (.mk none none Y)) 0)
      (ip_to_bools .v4 167772160 24) 0
      (by rw [h24]; exact mergeGo_twoLeaf_ne _ 24 X Y hXY (by decide))
    have hCore : entriesGo (maxPrefixLen .v4)
        (.mk (some (.mk none none X)) (some (.mk none none Y)) 0)
        ([] ++ ip_to_bools .v4 167772160 24)
        = .ok [(ip_to_bools .v4 167772160 24 ++ [false], X),
               (ip_to_bools .v4 167772160 24 ++ [true], Y)] := by
      rw [List.nil_append]
      exact entriesGo_twoLeaf _ X Y hX hY (ip_to_bools .v4 167772160 24) (by decide)
    have hE2 := entriesGo_extendPath (maxPrefixLen .v4)
      (.mk (some (.mk none none X)) (some (.mk none none Y)) 0)
      (ip_to_bools .v4 167772160 24) []
      [(ip_to_bools .v4 167772160 24 ++ [false], X),
       (ip_to_bools .v4 167772160 24 ++ [true], Y)] (by decide) hCore
    have hE2' : trieEntries .v4 (extendPath (ip_to_bools .v4 167772160 24)
        (.mk (some (.mk none none X)) (some (.mk none none Y)) 0))
        = .ok [(some ⟨.v4, 167772160, 25⟩, X), (some ⟨.v4, 167772288, 25⟩, Y)] := by
      unfold trieEntries
      rw [hE2]
      simp only [Except.map, List.map_cons, List.map_nil]
      rw [← ea, ← eb, hDec25a, hDec25b]
    rw [ea, eb, hIns1 X]
    simp only [Except.bind]
    rw [hSib X Y]
    simp only [Except.bind]
    rw [hM2]
    simp only [Except.bind]
    exact hE2'

theorem claim_C3_merge_collapse_witness :
    ((1 : Nat) ≠ 0 ∧ (2 : Nat) ≠ 0) ∧
    (((trieInsert .v4 emptyTrie (ip_to_bools .v4 167772160 25) 1 false).bind (fun t1 =>
        (trieInsert .v4 t1 (ip_to_bools .v4 167772288 25) 1 false).bind (fun t2 =>
        (mergeGo (maxPrefixLen .v4) t2 0).bind (fun m =>
        trieEntries .v4 m)))) = .ok [(some ⟨.v4, 167772160, 24⟩, 1)] ∧
      ((1 : Nat) ≠ 2 →
        ((trieInsert .v4 emptyTrie (ip_to_bools .v4 167772160 25) 1 false).bind (fun t1 =>
          (trieInsert .v4 t1 (ip_to_bools .v4 167772288 25) 2 false).bind (fun t2 =>
          (mergeGo (maxPrefixLen .v4) t2 0).bind (fun m =>
          trieEntries .v4 m))))
          = .ok [(some ⟨.v4, 167772160, 25⟩, 1), (some ⟨.v4, 167772288, 25⟩, 2)])) :=
  ⟨⟨by decide, by decide⟩, claim_C3_merge_collapse 1 2 (by decide) (by decide)⟩

/-- C7: the insert length guard is off by one in the code: `Trie.insert` checks
`prefix_len > max_prefix_len` on the enumerate index, so a 33-bit IPv4 bit
sequence (indices 0..32) raises nothing and is inserted, and only sequences of
34 or more bits raise the prefix-length error; the trie produced from the
33-bit insert then makes the entries traversal itself raise its depth error.
A 32-bit sequence inserts and enumerates cleanly. -/
theorem claim_C7_insert_length_guard :
    trieInsert .v4 emptyTrie (List.replicate 33 false) 1 false
      = .ok (pathNode (List.replicate 33 false) 1) ∧
    entriesGo (maxPrefixLen .v4) (pathNode (List.replicate 33 false) 1) []
      = .error .prefixLen ∧
    trieInsert .v4 emptyTrie (List.replicate 34 false) 1 false = .error .prefixLen ∧
    trieInsert .v4 emptyTrie (List.replicate 32 false) 1 false
      = .ok (pathNode (List.replicate 32 false) 1) ∧
    entriesGo (maxPrefixLen .v4) (pathNode (List.replicate 32 false) 1) []
      = .ok [(List.replicate 32 false, 1)] :=
  ⟨rfl, rfl, rfl, rfl, rfl⟩

/-- Height of a trie node: length of its longest child chain. -/
def Node.height : Node → Nat
  | .mk l r _ =>
    max (match l with
         | none => 0
         | some c => c.height + 1)
        (match r with
         | none => 0
         | some c => c.height + 1)

/-- Height contribution of an optional child. -/
def optHeight : Option Node → Nat
  | none => 0
  | some c => c.height + 1

theorem height_mk (l r : Option Node) (v : Nat) :
    (Node.mk l r v).height = max (optHeight l) (optHeight r) := by
  cases l <;> cases r <;> rfl

theorem optHeight_none : optHeight none = 0 := rfl

theorem optHeight_some (c : Node) : optHeight (some c) = c.height + 1 := rfl

theorem insertLoop_silent_ok (maxLen v : Nat) :
    ∀ bits n idx, idx + bits.length ≤ maxLen + 1 →
      ∃ n', insertLoop maxLen v false n bits idx = .ok n'
        ∧ n'.height ≤ max n.height bits.length := by
  intro bits
  induction bits with
  | nil =>
    intro n idx h
    refine ⟨.mk none none v, rfl, ?_⟩
    rw [height_mk, optHeight_none]
    omega
  | cons b rest ih =>
    intro n idx h
    simp only [List.length_cons] at h
    have hidx : ¬ maxLen < idx := by omega
    cases n with
    | mk l r v0 =>
      by_cases hv0 : v0 ≠ 0
      · refine ⟨.mk l r v0, ?_, by omega⟩
        simp [insertLoop, hidx, Node.value, hv0]
      · push_neg at hv0
        subst hv0
        cases b with
        | false =>
          obtain ⟨c', hc', hh⟩ := ih (l.getD (.mk none none 0)) (idx + 1) (by omega)
          refine ⟨.mk (some c') r 0, ?_, ?_⟩
          · simp [insertLoop, hidx, Node.value, Node.left, Node.right, hc']
          · rw [height_mk, height_mk, optHeight_some]
            cases l with
            | none =>
              simp only [Option.getD] at hh
              rw [height_mk, optHeight_none] at hh
              simp only [optHeight_none, List.length_cons]
              omega
            | some cl =>
              simp only [Option.getD] at hh
              simp only [optHeight_some, List.length_cons]
              omega
        | true =>
          obtain ⟨c', hc', hh⟩ := ih (r.getD (.mk none none 0)) (idx + 1) (by omega)
          refine ⟨.mk l (some c') 0, ?_, ?_⟩
          · simp [insertLoop, hidx, Node.value, Node.left, Node.right, hc']
          · rw [height_mk, height_mk, optHeight_some]
            cases r with
            | none =>
              simp only [Option.getD] at hh
              rw [height_mk, optHeight_none] at hh
              simp only [optHeight_none, List.length_cons]
              omega
            | some cr =>
              simp only [Option.getD] at hh
              simp only [optHeight_some, List.length_cons]
              omega

theorem mergeGo_left_err (maxLen : Nat) (cl : Node) (r : Option Node) (v d : Nat)
    (hd : ¬ maxLen < d) (e : TrieErr) (hl : mergeGo maxLen cl (d + 1) = .error e) :
    mergeGo maxLen (.mk (some cl) r v) d = .error e := by
  cases r <;> simp [mergeGo, hd, hl, Except.map]

theorem mergeGo_none_some_err (maxLen : Nat) (cr : Node) (v d : Nat)
    (hd : ¬ maxLen < d) (e : TrieErr) (hr : mergeGo maxLen cr (d + 1) = .error e) :
    mergeGo maxLen (.mk none (some cr) v) d = .error e := by
  simp [mergeGo, hd, hr, Except.map]

theorem mergeGo_some_some_err2 (maxLen : Nat) (cl cr : Node) (v d : Nat)
    (hd : ¬ maxLen < d) (rl : Node) (hl : mergeGo maxLen cl (d + 1) = .ok rl)
    (e : TrieErr) (hr : mergeGo maxLen cr (d + 1) = .error e) :
    mergeGo maxLen (.mk (some cl) (some cr) v) d = .error e := by
  simp [mergeGo, hd, hl, hr, Except.map]

theorem mergeGo_ok_of_height (maxLen : Nat) :
    ∀ k n d, Node.height n ≤ k → d + Node.height n ≤ maxLen →
      ∃ n', mergeGo maxLen n d = .ok n' := by
  intro k
  induction k with
  | zero =>
    intro n d h hd
    cases n with
    | mk l r v =>
      rw [height_mk] at h hd
      cases l with
      | some cl => simp only [optHeight_some, optHeight_none] at h; omega
      | none =>
        cases r with
        | some cr => simp only [optHeight_some, optHeight_none] at h; omega
        | none => exact ⟨_, mergeGo_leaf maxLen v d (by omega)⟩
  | succ k ih =>
    intro n d h hd
    cases n with
    | mk l r v =>
      rw [height_mk] at h hd
      cases l with
      | none =>
        cases r with
        | none => exact ⟨_, mergeGo_leaf maxLen v d (by omega)⟩
        | some cr =>
          simp only [optHeight_some, optHeight_none] at h hd
          obtain ⟨rr, hrr⟩ := ih cr (d + 1) (by omega) (by omega)
          exact ⟨_, mergeGo_right maxLen cr v d (by omega) rr hrr⟩
      | some cl =>
        cases r with
        | none =>
          simp only [optHeight_some, optHeight_none] at h hd
          obtain ⟨rl, hrl⟩ := ih cl (d + 1) (by omega) (by omega)
          exact ⟨_, mergeGo_left maxLen cl v d (by omega) rl hrl⟩
        | some cr =>
          simp only [optHeight_some, optHeight_none] at h hd
          obtain ⟨rl, hrl⟩ := ih cl (d + 1) (by omega) (by omega)
          obtain ⟨rr, hrr⟩ := ih cr (d + 1) (by omega) (by omega)
          by_cases hcond : rl.value ≠ 0 ∧ rl.value = rr.value
          · refine ⟨.mk none none rl.value, ?_⟩
            rw [mergeGo_both maxLen cl cr v d (by omega) rl rr hrl hrr, if_pos hcond]
          · refine ⟨.mk (some rl) (some rr) v, ?_⟩
            rw [mergeGo_both maxLen cl cr v d (by omega) rl rr hrl hrr, if_neg hcond]

theorem mergeGo_idem (maxLen : Nat) :
    ∀ k n d n', Node.height n ≤ k → mergeGo maxLen n d = .ok n' →
      mergeGo maxLen n' d = .ok n' := by
  intro k
  induction k with
  | zero =>
    intro n d n' h hm
    have hd : d ≤ maxLen := mergeGo_le maxLen n d n' hm
    cases n with
    | mk l r v =>
      rw [height_mk] at h
      cases l with
      | some cl => simp only [optHeight_some, optHeight_none] at h; omega
      | none =>
        cases r with
        | some cr => simp only [optHeight_some, optHeight_none] at h; omega
        | none =>
          rw [mergeGo_leaf maxLen v d (by omega)] at hm
          injection hm with hm'
          subst hm'
          exact mergeGo_leaf maxLen v d (by omega)
  | succ k ih =>
    intro n d n' h hm
    have hd : d ≤ maxLen := mergeGo_le maxLen n d n' hm
    cases n with
    | mk l r v =>
      rw [height_mk] at h
      cases l with
      | none =>
        cases r with
        | none =>
          rw [mergeGo_leaf maxLen v d (by omega)] at hm
          injection hm with hm'
          subst hm'
          exact mergeGo_leaf maxLen v d (by omega)
        | some cr =>
          simp only [optHeight_some, optHeight_none] at h
          cases hcr : mergeGo maxLen cr (d + 1) with
          | error e =>
            rw [mergeGo_none_some_err maxLen cr v d (by omega) e hcr] at hm
            exact Except.noConfusion hm
          | ok rr =>
            rw [mergeGo_right maxLen cr v d (by omega) rr hcr] at hm
            injection hm with hm'
            subst hm'
            have hrr2 := ih cr (d + 1) rr (by omega) hcr
            exact mergeGo_right maxLen rr v d (by omega) rr hrr2
      | some cl =>
        cases r with
        | none =>
          simp only [optHeight_some, optHeight_none] at h
          cases hcl : mergeGo maxLen cl (d + 1) with
          | error e =>
            rw [mergeGo_left_err maxLen cl none v d (by omega) e hcl] at hm
            exact Except.noConfusion hm
          | ok rl =>
            rw [mergeGo_left maxLen cl v d (by omega) rl hcl] at hm
            injection hm with hm'
            subst hm'
            have hrl2 := ih cl (d + 1) rl (by omega) hcl
            exact mergeGo_left maxLen rl v d (by omega) rl hrl2
        | some cr =>
          simp only [optHeight_some, optHeight_none] at h
          cases hcl : mergeGo maxLen cl (d + 1) with
          | error e =>
            rw [mergeGo_left_err maxLen cl (some cr) v d (by omega) e hcl] at hm
            exact Except.noConfusion hm
          | ok rl =>
            cases hcr : mergeGo maxLen cr (d + 1) with
            | error e =>
              rw [mergeGo_some_some_err2 maxLen cl cr v d (by omega) rl hcl e hcr] at hm
              exact Except.noConfusion hm
            | ok rr =>
              rw [mergeGo_both maxLen cl cr v d (by omega) rl rr hcl hcr] at hm
              have hrl2 := ih cl (d + 1) rl (by omega) hcl
              have hrr2 := ih cr (d + 1) rr (by omega) hcr
              by_cases hcond : rl.value ≠ 0 ∧ rl.value = rr.value
              · rw [if_pos hcond] at hm
                injection hm with hm'
                subst hm'
                exact mergeGo_leaf maxLen rl.value d (by omega)
              · rw [if_neg hcond] at hm
                injection hm with hm'
                subst hm'
                rw [mergeGo_both maxLen rl rr v d (by omega) rl rr hrl2 hrr2]
                rw [if_neg hcond]

/-- Fold of repeated `Trie.insert` calls in SILENT mode starting from a trie
root, as `_trie_uniq` (src/trie.py lines 168-176) performs them. -/
def buildTrie (v : IPVersion) : Node → List (List Bool × Nat) → Except TrieErr Node
  | t, [] => .ok t
  | t, (bits, val) :: rest =>
    match trieInsert v t bits val false with
    | .error e => .error e
    | .ok t' => buildTrie v t' rest

theorem buildTrie_ok (ver : IPVersion) :
    ∀ l t, (∀ p ∈ l, (p : List Bool × Nat).1.length ≤ maxPrefixLen ver) →
      Node.height t ≤ maxPrefixLen ver →
      ∃ t', buildTrie ver t l = .ok t' ∧ Node.height t' ≤ maxPrefixLen ver := by
  intro l
  induction l with
  | nil => exact fun t _ ht => ⟨t, rfl, ht⟩
  | cons p rest ih =>
    intro t hall ht
    obtain ⟨bits, val⟩ := p
    have hb : bits.length ≤ maxPrefixLen ver := hall (bits, val) (List.mem_cons_self _ _)
    obtain ⟨t1, h1, hh1⟩ := insertLoop_silent_ok (maxPrefixLen ver) val bits t 0 (by omega)
    have h1' : trieInsert ver t bits val false = .ok t1 := h1
    obtain ⟨t', h', hh'⟩ := ih t1 (fun q hq => hall q (List.mem_cons_of_mem _ hq)) (by omega)
    refine ⟨t', ?_, hh'⟩
    simp [buildTrie, h1', h']

/-- C4: merge is idempotent: for every trie built by any sequence of inserts of
bit paths within the family width, the bottom-up merge succeeds, running it a
second time returns exactly the same tree, and hence the entry sequence (same
networks, same values, same order) after merging twice equals the one after
merging once. -/
theorem claim_C4_merge_idempotent (ver : IPVersion) (inserts : List (List Bool × Nat))
    (hall : ∀ p ∈ inserts, (p : List Bool × Nat).1.length ≤ maxPrefixLen ver) :
    ∃ t t', buildTrie ver emptyTrie inserts = .ok t ∧
      mergeGo (maxPrefixLen ver) t 0 = .ok t' ∧
      mergeGo (maxPrefixLen ver) t' 0 = .ok t' ∧
      ((mergeGo (maxPrefixLen ver) t 0).bind (fun m => trieEntries ver m)
        = ((mergeGo (maxPrefixLen ver) t 0).bind
            (fun m => mergeGo (maxPrefixLen ver) m 0)).bind (fun m => trieEntries ver m)) := by
  have hempty : Node.height emptyTrie ≤ maxPrefixLen ver := by
    rw [show Node.height emptyTrie = 0 from rfl]
    omega
  obtain ⟨t, ht, hh⟩ := buildTrie_ok ver inserts emptyTrie hall hempty
  obtain ⟨t', hm⟩ := mergeGo_ok_of_height (maxPrefixLen ver) (Node.height t) t 0 le_rfl (by omega)
  have hm2 := mergeGo_idem (maxPrefixLen ver) (Node.height t) t 0 t' le_rfl hm
  refine ⟨t, t', ht, hm, hm2, ?_⟩
  rw [hm]
  simp only [Except.bind]
  rw [hm2]

theorem claim_C4_merge_idempotent_witness :
    (∀ p ∈ [(([false] : List Bool), 5)], (p : List Bool × Nat).1.length ≤ maxPrefixLen .v4) ∧
    (∃ t t', buildTrie .v4 emptyTrie [([false], 5)] = .ok t ∧
      mergeGo (maxPrefixLen .v4) t 0 = .ok t' ∧
      mergeGo (maxPrefixLen .v4) t' 0 = .ok t' ∧
      ((mergeGo (maxPrefixLen .v4) t 0).bind (fun m => trieEntries .v4 m)
        = ((mergeGo (maxPrefixLen .v4) t 0).bind
            (fun m => mergeGo (maxPrefixLen .v4) m 0)).bind (fun m => trieEntries .v4 m))) :=
  ⟨by decide, claim_C4_merge_idempotent .v4 [([false], 5)] (by decide)⟩

/-- Loop of `get_host_max_len` (src/parse_rir_file.py lines 35-43): while the
low bit is clear, shift right and count (`res`). The loop never exits for the
all-zero value, so the model carries a fuel budget of loop iterations and
returns `none` when it is exhausted; Python simply never terminates there. -/
def hostMaxLenLoop : Nat → Nat → Nat → Option Nat
  | 0, _, _ => none
  | fuel + 1, bits, res =>
    if bits % 2 = 0 then hostMaxLenLoop fuel (bits / 2) (res + 1) else some res

/-- Function `get_host_max_len(ip)` on the integer value of the address, with
explicit fuel (`res` starts at 0). -/
def get_host_max_len (fuel ip : Nat) : Option Nat := hostMaxLenLoop fuel ip 0

/-- Exception of `IPv4Address(value)` for an out-of-range value, raised by
`current_start += current_subnet_hosts` in `ipv4_range_to_subnets` when the sum
passes the top of the 32-bit space. -/
inductive RangeErr where
  | addressValueError
deriving DecidableEq

/-- Generator `ipv4_range_to_subnets` (src/parse_rir_file.py lines 46-61) on
integer address values, collected into a list of (address, prefix length)
pairs for the yielded strings f-string `current_start/(32 - subnet_bits)`.
While `num` is nonzero: `subnet_bits = min(int(math.log2(num)),
get_host_max_len(current_start))` (for this domain the float `math.log2` is
exact, so `int(math.log2(num))` is `Nat.log2 num`), yield the block, subtract
the block size from `num` and add it to `current_start`; the increment rebuilds
an `IPv4Address` and raises `AddressValueError` past the top of the space, and
a raise aborts the whole enumeration of the generator. `none` propagates the
fuel-modelled non-termination of `get_host_max_len`. -/
def ipv4_range_to_subnets (fuel : Nat) : Nat → Nat → Option (Except RangeErr (List (Nat × Nat)))
  | cur, num =>
    if num = 0 then some (.ok [])
    else
      match get_host_max_len fuel cur with
      | none => none
      | some hml =>
        if 2 ^ 32 ≤ cur + 2 ^ min (Nat.log2 num) hml then some (.error .addressValueError)
        else
          (ipv4_range_to_subnets fuel (cur + 2 ^ min (Nat.log2 num) hml)
            (num - 2 ^ min (Nat.log2 num) hml)).map
            (Except.map (fun l => (cur, 32 - min (Nat.log2 num) hml) :: l))
termination_by cur num => num
decreasing_by
  have hp : 0 < 2 ^ min (Nat.log2 num) hml := Nat.pos_pow_of_pos _ (by norm_num)
  omega

theorem hostMaxLenLoop_spec :
    ∀ fuel n res, n ≠ 0 → n < 2 ^ fuel →
      ∃ r, hostMaxLenLoop fuel n res = some (res + r) ∧ 2 ^ r ∣ n ∧ ¬ 2 ^ (r + 1) ∣ n := by
  intro fuel
  induction fuel with
  | zero =>
    intro n res h0 hlt
    simp at hlt
    omega
  | succ f ih =>
    intro n res h0 hlt
    by_cases heven : n % 2 = 0
    · have hn2 : n / 2 ≠ 0 := by omega
      have hn2lt : n / 2 < 2 ^ f := by
        rw [pow_succ] at hlt
        omega
      obtain ⟨r, hr, hdvd, hnd⟩ := ih (n / 2) (res + 1) hn2 hn2lt
      refine ⟨r + 1, ?_, ?_, ?_⟩
      · simp only [hostMaxLenLoop, heven, if_pos, hr]
        congr 1
        omega
      · have hsplit : n = n / 2 * 2 := by omega
        rw [hsplit, pow_succ]
        exact mul_dvd_mul_right hdvd 2
      · intro hcon
        apply hnd
        have hdvd2 : (2 : Nat) ∣ n := Nat.dvd_of_mod_eq_zero heven
        rw [Nat.dvd_div_iff hdvd2]
        rw [show 2 * 2 ^ (r + 1) = 2 ^ (r + 1 + 1) by ring]
        exact hcon
    · refine ⟨0, ?_, ?_, ?_⟩
      · simp [hostMaxLenLoop, heven]
      · simp
      · intro hcon
        have : n % 2 = 0 := Nat.mod_eq_zero_of_dvd (by simpa using hcon)
        omega

theorem range_zero (fuel cur : Nat) : ipv4_range_to_subnets fuel cur 0 = some (.ok []) := by
  rw [ipv4_range_to_subnets]
  simp

theorem range_step (fuel cur num tz : Nat) (hne : num ≠ 0)
    (hg : get_host_max_len fuel cur = some tz)
    (hno : ¬ 2 ^ 32 ≤ cur + 2 ^ min (Nat.log2 num) tz) :
    ipv4_range_to_subnets fuel cur num
      = (ipv4_range_to_subnets fuel (cur + 2 ^ min (Nat.log2 num) tz)
          (num - 2 ^ min (Nat.log2 num) tz)).map
          (Except.map (fun l => (cur, 32 - min (Nat.log2 num) tz) :: l)) := by
  rw [ipv4_range_to_subnets]
  rw [if_neg hne, hg]
  simp only []
  rw [if_neg hno]

theorem range_over (fuel cur num tz : Nat) (hne : num ≠ 0)
    (hg : get_host_max_len fuel cur = some tz)
    (hov : 2 ^ 32 ≤ cur + 2 ^ min (Nat.log2 num) tz) :
    ipv4_range_to_subnets fuel cur num = some (.error .addressValueError) := by
  rw [ipv4_range_to_subnets]
  rw [if_neg hne, hg]
  simp only []
  rw [if_pos hov]

/-- Greedy consecutive CIDR chain: each block starts exactly where the previous
one ended, is a power-of-two block whose size divides its start address (a
valid CIDR block), fits in the remaining host count, and is maximal in the
greedy sense (a block twice as large would exceed the remaining count or break
the alignment); the chain ends exactly when the count is exhausted. -/
def IntervalChain : Nat → Nat → List (Nat × Nat) → Prop
  | _, num, [] => num = 0
  | cur, num, (a, p) :: rest =>
    a = cur ∧ p ≤ 32 ∧ 2 ^ (32 - p) ∣ a ∧ 2 ^ (32 - p) ≤ num ∧
      (num < 2 * 2 ^ (32 - p) ∨ ¬ (2 * 2 ^ (32 - p) ∣ a)) ∧
      IntervalChain (cur + 2 ^ (32 - p)) (num - 2 ^ (32 - p)) rest

theorem rangeLoop_spec :
    ∀ num cur, 0 < num → 0 < cur → cur + num < 2 ^ 32 →
      ∃ bs, ipv4_range_to_subnets 32 cur num = some (.ok bs) ∧ IntervalChain cur num bs := by
  intro num
  induction num using Nat.strong_induction_on with
  | _ num ih =>
    intro cur h0 hc hbound
    have hne : num ≠ 0 := by omega
    obtain ⟨tz, htz, htzd, htznd⟩ := hostMaxLenLoop_spec 32 cur 0 (by omega) (by omega)
    have hg : get_host_max_len 32 cur = some tz := by
      unfold get_host_max_len
      rw [htz, Nat.zero_add]
    have htzle : 2 ^ tz ≤ cur := Nat.le_of_dvd (by omega) htzd
    have htz32 : tz ≤ 31 := by
      by_contra hcl
      have h32 : (2 : Nat) ^ 32 ≤ 2 ^ tz := Nat.pow_le_pow_right (by norm_num) (by omega)
      omega
    have hszle : 2 ^ min (Nat.log2 num) tz ≤ num := by
      calc 2 ^ min (Nat.log2 num) tz ≤ 2 ^ Nat.log2 num :=
            Nat.pow_le_pow_right (by norm_num) (Nat.min_le_left _ _)
        _ ≤ num := Nat.log2_self_le hne
    have hszpos : 0 < 2 ^ min (Nat.log2 num) tz := Nat.pos_pow_of_pos _ (by norm_num)
    have hno : ¬ 2 ^ 32 ≤ cur + 2 ^ min (Nat.log2 num) tz := by omega
    have hple : 32 - (32 - min (Nat.log2 num) tz) = min (Nat.log2 num) tz := by
      have : min (Nat.log2 num) tz ≤ tz := Nat.min_le_right _ _
      omega
    have halign : 2 ^ min (Nat.log2 num) tz ∣ cur :=
      dvd_trans (Nat.pow_dvd_pow 2 (Nat.min_le_right _ _)) htzd
    have hmaximal : num < 2 * 2 ^ min (Nat.log2 num) tz ∨
        ¬ (2 * 2 ^ min (Nat.log2 num) tz ∣ cur) := by
      rcases Nat.le_total (Nat.log2 num) tz with hcase | hcase
      · left
        rw [Nat.min_eq_left hcase]
        have := Nat.lt_log2_self (n := num)
        rw [pow_succ] at this
        omega
      · right
        rw [Nat.min_eq_right hcase]
        rw [show 2 * 2 ^ tz = 2 ^ (tz + 1) by ring]
        exact htznd
    by_cases hz : num - 2 ^ min (Nat.log2 num) tz = 0
    · refine ⟨[(cur, 32 - min (Nat.log2 num) tz)], ?_, ?_⟩
      · rw [range_step 32 cur num tz hne hg hno, hz, range_zero]
        rfl
      · refine ⟨rfl, by omega, ?_, ?_, ?_, ?_⟩
        · rw [hple]
          exact halign
        · rw [hple]
          exact hszle
        · rw [hple]
          exact hmaximal
        · rw [hple]
          exact hz
    · obtain ⟨bs', hbs', hchain'⟩ := ih (num - 2 ^ min (Nat.log2 num) tz) (by omega)
        (cur + 2 ^ min (Nat.log2 num) tz) (by omega) (by omega) (by omega)
      refine ⟨(cur, 32 - min (Nat.log2 num) tz) :: bs', ?_, ?_⟩
      · rw [range_step 32 cur num tz hne hg hno, hbs']
        rfl
      · refine ⟨rfl, by omega, ?_, ?_, ?_, ?_⟩
        · rw [hple]
          exact halign
        · rw [hple]
          exact hszle
        · rw [hple]
          exact hmaximal
        · rw [hple]
          exact hchain'

theorem IntervalChain_mem_lb : ∀ (bs : List (Nat × Nat)) (cur num : Nat),
    IntervalChain cur num bs → ∀ b ∈ bs, cur ≤ b.1 := by
  intro bs
  induction bs with
  | nil =>
    intro cur num h b hb
    cases hb
  | cons hd tl ih =>
    intro cur num h b hb
    obtain ⟨a, p⟩ := hd
    obtain ⟨ha, hp, hal, hsz, hmax, htail⟩ := h
    rcases List.mem_cons.mp hb with rfl | hbtl
    · simp only []
      omega
    · have := ih (cur + 2 ^ (32 - p)) (num - 2 ^ (32 - p)) htail b hbtl
      omega

theorem IntervalChain_pairwise : ∀ (bs : List (Nat × Nat)) (cur num : Nat),
    IntervalChain cur num bs →
    bs.Pairwise (fun b1 b2 => b1.1 + 2 ^ (32 - b1.2) ≤ b2.1) := by
  intro bs
  induction bs with
  | nil =>
    intro cur num _
    exact List.Pairwise.nil
  | cons hd tl ih =>
    intro cur num h
    obtain ⟨a, p⟩ := hd
    obtain ⟨ha, hp, hal, hsz, hmax, htail⟩ := h
    refine List.Pairwise.cons ?_ (ih _ _ htail)
    intro b hb
    have hlb := IntervalChain_mem_lb tl _ _ htail b hb
    simp only []
    omega

theorem IntervalChain_cover : ∀ (bs : List (Nat × Nat)) (cur num : Nat),
    IntervalChain cur num bs →
    ∀ x, (cur ≤ x ∧ x < cur + num) ↔ ∃ b ∈ bs, b.1 ≤ x ∧ x < b.1 + 2 ^ (32 - b.2) := by
  intro bs
  induction bs with
  | nil =>
    intro cur num h x
    constructor
    · intro hx
      rw [h] at hx
      omega
    · intro ⟨b, hb, _⟩
      cases hb
  | cons hd tl ih =>
    intro cur num h x
    obtain ⟨a, p⟩ := hd
    obtain ⟨ha, hp, hal, hsz, hmax, htail⟩ := h
    subst ha
    have hIH := ih (a + 2 ^ (32 - p)) (num - 2 ^ (32 - p)) htail x
    constructor
    · intro ⟨hx1, hx2⟩
      by_cases hin : x < a + 2 ^ (32 - p)
      · exact ⟨(a, p), List.mem_cons_self _ _, by simp only []; omega⟩
      · obtain ⟨b, hb, hbx⟩ := hIH.mp ⟨by omega, by omega⟩
        exact ⟨b, List.mem_cons_of_mem _ hb, hbx⟩
    · intro ⟨b, hb, hbx⟩
      rcases List.mem_cons.mp hb with rfl | hbtl
      · simp only [] at hbx
        omega
      · have := hIH.mpr ⟨b, hbtl, hbx⟩
        omega

/-- C5 (amended): for every start address with nonzero integer value and host
count num >= 1 such that start + num < 2^32, the decomposition succeeds and
yields a greedy consecutive CIDR chain: blocks pairwise disjoint and in
ascending address order (each block ends at or before the next begins), union
exactly the host range [start, start+num), each block the largest power-of-two
size that fits the remaining count and the trailing-zero alignment of its
start; and concretely the range starting at 10.0.0.5 (value 167772165) with 3
hosts yields exactly 10.0.0.5/32 and 10.0.0.6/31. The original claim's domain
is restricted: for start 0.0.0.0 the helper get_host_max_len never terminates,
and for a range reaching exactly the top of the address space the final
address increment raises AddressValueError instead of finishing cleanly. -/
theorem claim_C5_range_decomposition (start num : Nat) (h1 : 0 < start) (h2 : 1 ≤ num)
    (h3 : start + num < 2 ^ 32) :
    ∃ bs, ipv4_range_to_subnets 32 start num = some (.ok bs) ∧
      IntervalChain start num bs ∧
      bs.Pairwise (fun b1 b2 => b1.1 + 2 ^ (32 - b1.2) ≤ b2.1) ∧
      (∀ x, (start ≤ x ∧ x < start + num) ↔
        ∃ b ∈ bs, b.1 ≤ x ∧ x < b.1 + 2 ^ (32 - b.2)) ∧
      ipv4_range_to_subnets 32 167772165 3
        = some (.ok [(167772165, 32), (167772166, 31)]) := by
  obtain ⟨bs, hbs, hchain⟩ := rangeLoop_spec num start h2 h1 h3
  have hlog3 : Nat.log2 3 = 1 := by simp [Nat.log2]
  have hlog2 : Nat.log2 2 = 1 := by simp [Nat.log2]
  have hex : ipv4_range_to_subnets 32 167772165 3
      = some (.ok [(167772165, 32), (167772166, 31)]) := by
    rw [range_step 32 167772165 3 0 (by decide) (by decide) (by rw [hlog3]; decide)]
    rw [hlog3]
    rw [show (167772165 + 2 ^ min 1 0 : Nat) = 167772166 by decide,
      show (3 - 2 ^ min 1 0 : Nat) = 2 by decide]
    rw [range_step 32 167772166 2 1 (by decide) (by decide) (by rw [hlog2]; decide)]
    rw [hlog2]
    rw [show (167772166 + 2 ^ min 1 1 : Nat) = 167772168 by decide,
      show (2 - 2 ^ min 1 1 : Nat) = 0 by decide]
    rw [range_zero]
    rfl
  exact ⟨bs, hbs, hchain, IntervalChain_pairwise bs start num hchain,
    IntervalChain_cover bs start num hchain, hex⟩

/-- C5 counterexample: the one-host range at the top address 255.255.255.255
(value 4294967295) stays entirely within the IPv4 address space, yet the
generator raises AddressValueError at the final start-address increment instead
of yielding the covering block list, refuting the claim for every in-space
range. -/
theorem claim_C5_range_decomposition_cex :
    ipv4_range_to_subnets 32 4294967295 1 = some (.error .addressValueError) :=
  range_over 32 4294967295 1 0 (by decide) (by decide)
    (by rw [Nat.min_zero]; decide)

theorem claim_C5_range_decomposition_witness :
    (0 < (10 : Nat) ∧ 1 ≤ (7 : Nat) ∧ (10 : Nat) + 7 < 2 ^ 32) ∧
    (∃ bs, ipv4_range_to_subnets 32 10 7 = some (.ok bs) ∧
      IntervalChain 10 7 bs ∧
      bs.Pairwise (fun b1 b2 => b1.1 + 2 ^ (32 - b1.2) ≤ b2.1) ∧
      (∀ x, ((10 : Nat) ≤ x ∧ x < 10 + 7) ↔
        ∃ b ∈ bs, b.1 ≤ x ∧ x < b.1 + 2 ^ (32 - b.2)) ∧
      ipv4_range_to_subnets 32 167772165 3
        = some (.ok [(167772165, 32), (167772166, 31)])) :=
  ⟨⟨by decide, by decide, by decide⟩,
    claim_C5_range_decomposition 10 7 (by decide) (by decide) (by decide)⟩

/-- C10: the trailing-zero loop of get_host_max_len terminates and returns the
number of trailing zero bits for every nonzero IPv4 address value (a fuel of 32
iterations suffices on the 32-bit domain), it never terminates on the all-zero
address (no fuel suffices, hence the nonzero precondition), and consequently
ipv4_range_to_subnets terminates for every host count whenever the start value
is nonzero, either returning the block list or raising the address overflow
error. -/
theorem claim_C10_termination :
    (∀ n, n ≠ 0 → n < 2 ^ 32 →
      ∃ r, get_host_max_len 32 n = some r ∧ 2 ^ r ∣ n ∧ ¬ 2 ^ (r + 1) ∣ n) ∧
    (∀ fuel, get_host_max_len fuel 0 = none) ∧
    (∀ start num, 0 < start → start < 2 ^ 32 →
      ∃ res, ipv4_range_to_subnets 32 start num = some res) := by
  have hzero : ∀ fuel res, hostMaxLenLoop fuel 0 res = none := by
    intro fuel
    induction fuel with
    | zero => intro res; rfl
    | succ f ih =>
      intro res
      simp [hostMaxLenLoop, ih]
  refine ⟨?_, ?_, ?_⟩
  · intro n h0 hlt
    obtain ⟨r, hr, hdvd, hnd⟩ := hostMaxLenLoop_spec 32 n 0 h0 hlt
    refine ⟨r, ?_, hdvd, hnd⟩
    unfold get_host_max_len
    rw [hr, Nat.zero_add]
  · intro fuel
    exact hzero fuel 0
  · intro start num
    induction num using Nat.strong_induction_on generalizing start with
    | _ num ih =>
      intro hc0 hlt
      by_cases hz : num = 0
      · subst hz
        exact ⟨.ok [], range_zero 32 start⟩
      · obtain ⟨tz, htz, _, _⟩ := hostMaxLenLoop_spec 32 start 0 (by omega) hlt
        have hg : get_host_max_len 32 start = some tz := by
          unfold get_host_max_len
          rw [htz, Nat.zero_add]
        have hszpos : 0 < 2 ^ min (Nat.log2 num) tz := Nat.pos_pow_of_pos _ (by norm_num)
        by_cases hov : 2 ^ 32 ≤ start + 2 ^ min (Nat.log2 num) tz
        · exact ⟨.error .addressValueError, range_over 32 start num tz hz hg hov⟩
        · obtain ⟨res', hres'⟩ := ih (num - 2 ^ min (Nat.log2 num) tz) (by omega)
            (start + 2 ^ min (Nat.log2 num) tz) (by omega) (by omega)
          refine ⟨res'.map (fun l => (start, 32 - min (Nat.log2 num) tz) :: l), ?_⟩
          rw [range_step 32 start num tz hz hg hov, hres']
          rfl

theorem claim_C10_termination_witness :
    ((12 : Nat) ≠ 0 ∧ (12 : Nat) < 2 ^ 32 ∧ 0 < (5 : Nat) ∧ (5 : Nat) < 2 ^ 32) ∧
    (∃ r, get_host_max_len 32 12 = some r ∧ 2 ^ r ∣ 12 ∧ ¬ 2 ^ (r + 1) ∣ 12) ∧
    get_host_max_len 7 0 = none ∧
    (∃ res, ipv4_range_to_subnets 32 5 3 = some res) :=
  ⟨⟨by decide, by decide, by decide, by decide⟩,
    claim_C10_termination.1 12 (by decide) (by decide),
    claim_C10_termination.2.1 7,
    claim_C10_termination.2.2 5 3 (by decide) (by decide)⟩

/-- Record produced by `parse_record` for one data line of the extended RIR
format (src/parse_rir_file.py line 95): the eight schema fields in line order.
The Python dicts are modelled as association lists with unique keys, on which
`dict.pop(key)` drops the key and `d | {key: v}` appends the new key last. -/
def mkRecord (registry cc rtype start value date status extensions : String) :
    List (String × String) :=
  [("registry", registry), ("cc", cc), ("type", rtype), ("start", start),
   ("value", value), ("date", date), ("status", status), ("extensions", extensions)]

/-- Python `record.pop(key, ...)` on a unique-key dict: remove the key. -/
def popField (k : String) (r : List (String × String)) : List (String × String) :=
  r.filter (fun p => p.1 != k)

/-- Metadata kept by `record_changes` (src/parse_rir_file.py lines 64-69): the
default `ignored_fields` ('registry', 'extensions', 'date') are popped first,
then 'start' and 'value'; the type tag stays, to be removed in parse_file. -/
def record_changes_meta (r : List (String × String)) : List (String × String) :=
  popField "value" (popField "start"
    (popField "date" (popField "extensions" (popField "registry" r))))

/-- Fields whose content determines the dedup key in `parse_file`
(src/parse_rir_file.py lines 138-146): the sub-record is the retained metadata
together with the address field ('subnet'), and parse_file pops 'type' and
'subnet' before `hash(frozendict(record))`; the fingerprint is modelled as the
remaining field list itself, since the frozendict hash used as cache key stands
for exactly that key-value content. -/
def fingerprint (r : List (String × String)) (subnet : String) : List (String × String) :=
  popField "subnet" (popField "type" (record_changes_meta r ++ [("subnet", subnet)]))

/-- C6 (amended): the dedup fingerprint is computed over exactly the country
code and status fields: registry, date and any extension fields are dropped by
record_changes' default ignored_fields before the record ever reaches the
hash, and the address-specific field and the type tag are excluded as the
original claim says; two schema records agree on the fingerprint if and only
if they agree on cc and status. -/
theorem claim_C6_fingerprint (a1 b1 c1 d1 e1 f1 g1 i1 a2 b2 c2 d2 e2 f2 g2 i2 s1 s2 : String) :
    fingerprint (mkRecord a1 b1 c1 d1 e1 f1 g1 i1) s1
      = fingerprint (mkRecord a2 b2 c2 d2 e2 f2 g2 i2) s2
      ↔ (b1 = b2 ∧ g1 = g2) := by
  have hf : ∀ a b c d e f g i s, fingerprint (mkRecord a b c d e f g i) s
      = [("cc", b), ("status", g)] := fun a b c d e f g i s => rfl
  rw [hf, hf]
  simp

/-- C6 counterexample: two schema records identical except for their date field
(and likewise distinguishable only by registry or extensions) produce the same
fingerprint, refuting the claimed characterization that fingerprint agreement
holds if and only if the records agree on registry, country code, status, date
and extension fields. -/
theorem claim_C6_fingerprint_cex :
    fingerprint
        (mkRecord "ripencc" "EE" "ipv4" "10.0.0.0" "256" "20200101" "allocated" "e1")
        "10.0.0.0/24"
      = fingerprint
        (mkRecord "ripencc" "EE" "ipv4" "10.0.0.0" "256" "20300101" "allocated" "e1")
        "10.0.0.0/24"
      ∧ ("20200101" : String) ≠ "20300101" :=
  ⟨rfl, by decide⟩

/-- Errors raised by the line layer of src/parse_rir_file.py: `unexpectedEOF`
is the `'unexpected EOF'` ValueError of `_line_data`, `corrupt` carries the
capped preview of the `'data left over'` ValueError of `eof_check`, `keyError`
is a Python KeyError on a missing summary field, `badInt` the int() ValueError
on a malformed count. -/
inductive ParseErr where
  | unexpectedEOF
  | corrupt (preview : List Char)
  | keyError (k : String)
  | badInt (s : List Char)
deriving DecidableEq

/-- Characters stripped by Python `str.rstrip()` from the right of a physical
line; the model stores lines without their final newline, which rstrip would
drop anyway. -/
def pyRstrip (l : List Char) : List Char :=
  (l.reverse.dropWhile (fun c => c = ' ' ∨ c = '\t' ∨ c = '\r' ∨ c = '\n')).reverse

/-- Full split of a line at every `'|'`, character-level semantics of Python
`str.split('|')`. -/
def splitChar : List Char → List (List Char)
  | [] => [[]]
  | c :: rest =>
    match splitChar rest with
    | [] => [[c]]
    | g :: gs => if c = '|' then [] :: g :: gs else (c :: g) :: gs

/-- Python `line.split('|', maxsplit=num_rows - 1)` for the `num_rows >= 1`
uses of `_line_data`: at most `num_rows` pieces, the last one keeping any
further separators. -/
def splitPipeMax (l : List Char) (numRows : Nat) : List (List Char) :=
  if (splitChar l).length ≤ numRows then splitChar l
  else (splitChar l).take (numRows - 1)
    ++ [List.intercalate ['|'] ((splitChar l).drop (numRows - 1))]

/-- Function `_line_data` (src/parse_rir_file.py lines 23-32) over the list of
remaining input lines: lines that are blank after rstrip or start with '#' are
skipped; end of input raises 'unexpected EOF'; otherwise the rstripped line is
split and the rest of the stream returned. -/
def _line_data : List (List Char) → Nat → Except ParseErr (List (List Char) × List (List Char))
  | [], _ => .error .unexpectedEOF
  | l :: rest, numRows =>
    if pyRstrip l = [] ∨ (pyRstrip l).head? = some '#' then _line_data rest numRows
    else .ok (splitPipeMax (pyRstrip l) numRows, rest)

/-- Function `_line_field_map` (src/parse_rir_file.py lines 15-20): zip the
field-name list with the split line data, keeping the pairs whose name is
given (`None` names mark ignored columns) and whose name and data are
non-empty (Python truthiness of `field_name and field_data`); `zip` stops at
the shorter list. -/
def _line_field_map (fields : List (Option String)) (fd : List (List Char)) :
    Except ParseErr (List (String × List Char) × List (List Char)) :=
  match _line_data fd fields.length with
  | .error e => .error e
  | .ok (data, fd') =>
    .ok ((fields.zip data).filterMap (fun p =>
      match p.1 with
      | none => none
      | some nm => if nm ≠ "" ∧ p.2 ≠ [] then some (nm, p.2) else none), fd')

/-- Field schema of `parse_header` (src/parse_rir_file.py line 93). -/
def headerFields : List (Option String) :=
  [some "version", some "registry", some "serial", some "records",
   some "startdate", some "enddate", some "utc_offset"]

/-- Field schema of `parse_summary` (src/parse_rir_file.py line 94). -/
def summaryFields : List (Option String) :=
  [some "registry", none, some "type", none, some "count", some "summary"]

/-- Python `d[key]` on the parsed field map. -/
def lookupField (k : String) (m : List (String × List Char)) : Option (List Char) :=
  (m.find? (fun p => p.1 == k)).map (fun p => p.2)

/-- Python `int(s)` on the plain decimal digit strings that RIR summary counts
use; anything else is modelled as the int() ValueError. -/
def pyInt (s : List Char) : Option Nat :=
  if s ≠ [] ∧ s.all (fun c => c.isDigit) then
    some (s.foldl (fun a c => a * 10 + (c.toNat - 48)) 0)
  else none

/-- Summary dict comprehension key `summary['type']` of parse_file: a missing
field raises KeyError. -/
def summaryType (m : List (String × List Char)) : Except ParseErr (List Char) :=
  match lookupField "type" m with
  | none => .error (.keyError "type")
  | some t => .ok t

/-- Count extraction `int(summary['count'])` of parse_file (lines 121-124). -/
def summaryCount (m : List (String × List Char)) : Except ParseErr Nat :=
  match lookupField "count" m with
  | none => .error (.keyError "count")
  | some s =>
    match pyInt s with
    | none => .error (.badInt s)
    | some n => .ok n

/-- Python dict comprehension `{summary['type']: summary for ...}` keyed by the
type field: an existing key is overwritten in place, a new key appended. -/
def upsert (k : List Char) (v : List (String × List Char)) :
    List (List Char × List (String × List Char)) →
    List (List Char × List (String × List Char))
  | [] => [(k, v)]
  | (k', v') :: rest => if k' = k then (k, v) :: rest else (k', v') :: upsert k v rest

/-- Consume exactly `n` record lines via `parse_record(fd)`
(`for _ in range(num_records)` in parse_file, line 133). -/
def readRecords : Nat → List (List Char) → Except ParseErr (List (List Char))
  | 0, fd => .ok fd
  | n + 1, fd =>
    match _line_data fd 8 with
    | .error e => .error e
    | .ok (_, fd') => readRecords n fd'

/-- Line-consumption skeleton of `parse_file` (src/parse_rir_file.py lines
112-149): parse the header, three summaries keyed by type, sum the declared
counts over the retained dict values, and consume exactly that many record
lines, returning the unconsumed remainder of the stream. The per-record
post-processing (filter, record_changes, trie insertion) reads no lines and,
for the record-free inputs evaluated concretely here, runs no code at all, so
the model elides it; `parse_record(fd)` is called exactly the declared number
of times. -/
def parse_file_consume (fd : List (List Char)) : Except ParseErr (List (List Char)) := do
  let (_, fd) ← _line_field_map headerFields fd
  let (s1, fd) ← _line_field_map summaryFields fd
  let t1 ← summaryType s1
  let (s2, fd) ← _line_field_map summaryFields fd
  let t2 ← summaryType s2
  let (s3, fd) ← _line_field_map summaryFields fd
  let t3 ← summaryType s3
  let smap := upsert t3 s3 (upsert t2 s2 (upsert t1 s1 []))
  let counts ← smap.mapM (fun p => summaryCount p.2)
  readRecords counts.sum fd

/-- Length cap of the unexpected-content preview in `eof_check` (lines
104-107): at most 100 characters of the offending line are reported. -/
def previewCap (l : List Char) : List Char :=
  if 100 < l.length then l.take 100 else l

/-- Function `eof_check` (src/parse_rir_file.py lines 98-109): one more raw
readline; only the empty read of end-of-input passes; any remaining line —
comment and blank lines included, since nothing is skipped here — raises the
data-left-over error with the capped preview. -/
def eof_check : List (List Char) → Except ParseErr Unit
  | [] => .ok ()
  | l :: _ => .error (.corrupt (previewCap l))

/-- Whole line-level run of `parse_file`: consume the declared structure, then
verify nothing remains. -/
def parse_file_lines (fd : List (List Char)) : Except ParseErr Unit := do
  let rest ← parse_file_consume fd
  eof_check rest

/-- Header line of the concrete test files. -/
def rirHeaderLine : List Char := "2|ripencc|1|1|20240101|20240102|+0200".data

/-- Summary line declaring one asn record. -/
def rirSummaryAsn1 : List Char := "ripencc|*|asn|*|1|summary".data

/-- Summary line declaring zero asn records. -/
def rirSummaryAsn0 : List Char := "ripencc|*|asn|*|0|summary".data

/-- Summary line declaring zero ipv4 records. -/
def rirSummaryV4 : List Char := "ripencc|*|ipv4|*|0|summary".data

/-- Summary line declaring zero ipv6 records. -/
def rirSummaryV6 : List Char := "ripencc|*|ipv6|*|0|summary".data

/-- One well-formed asn data line. -/
def rirDataLine : List Char := "ripencc|EE|asn|64500|1|20240101|allocated|e".data

/-- File whose summary counts sum to 1 but which has no data line. -/
def rirFileTruncated : List (List Char) :=
  [rirHeaderLine, rirSummaryAsn1, rirSummaryV4, rirSummaryV6]

/-- File whose summary counts sum to 1 with exactly one data line. -/
def rirFileExact : List (List Char) :=
  [rirHeaderLine, rirSummaryAsn1, rirSummaryV4, rirSummaryV6, rirDataLine]

/-- File whose summary counts sum to 1 but which has two data lines. -/
def rirFileExtraLine : List (List Char) :=
  [rirHeaderLine, rirSummaryAsn1, rirSummaryV4, rirSummaryV6, rirDataLine, rirDataLine]

/-- File whose summary counts sum to 0, followed only by a trailing comment. -/
def rirFileTrailingComment : List (List Char) :=
  [rirHeaderLine, rirSummaryAsn0, rirSummaryV4, rirSummaryV6, "# trailing comment".data]

/-- C8 (amended): parse_file consumes the header, the three summaries and
exactly the declared sum of data-line reads, skipping comment and blank lines
while looking for each of those; _line_data raises the unexpected-EOF error
whenever the stream ends first; and after the declared count is consumed the
parse raises the corrupt-input error, with a 100-character-capped preview of
the offending line, if and only if ANY further line remains — the final
eof_check reads one raw line without skipping comments, so trailing comment
lines also abort the parse (this last point corrects the original claim).
Concretely, with a declared sum of 1: no data line raises unexpected EOF, two
data lines raise corrupt input previewing the extra line, and exactly one data
line parses cleanly. -/
theorem claim_C8_declared_count (fd : List (List Char)) (rest : List (List Char))
    (h : parse_file_consume fd = .ok rest) :
    ((parse_file_lines fd = .ok ()) ↔ rest = []) ∧
    (∀ l rest', rest = l :: rest' → parse_file_lines fd = .error (.corrupt (previewCap l))) ∧
    (∀ n, _line_data [] n = .error .unexpectedEOF) ∧
    parse_file_lines rirFileTruncated = .error .unexpectedEOF ∧
    parse_file_lines rirFileExtraLine = .error (.corrupt rirDataLine) ∧
    parse_file_lines rirFileExact = .ok () := by
  have hrun : parse_file_lines fd = eof_check rest := by
    unfold parse_file_lines
    rw [h]
    rfl
  refine ⟨?_, ?_, ?_, ?_, ?_, ?_⟩
  · rw [hrun]
    cases rest with
    | nil => simp [eof_check]
    | cons l r => simp [eof_check]
  · intro l rest' hr
    rw [hrun, hr]
    rfl
  · intro n
    rfl
  · rfl
  · rfl
  · rfl

theorem claim_C8_declared_count_witness :
    parse_file_consume rirFileExtraLine = .ok [rirDataLine] ∧
    (((parse_file_lines rirFileExtraLine = .ok ()) ↔ [rirDataLine] = ([] : List (List Char))) ∧
      (∀ l rest', ([rirDataLine] : List (List Char)) = l :: rest' →
        parse_file_lines rirFileExtraLine = .error (.corrupt (previewCap l))) ∧
      (∀ n, _line_data [] n = .error .unexpectedEOF) ∧
      parse_file_lines rirFileTruncated = .error .unexpectedEOF ∧
      parse_file_lines rirFileExtraLine = .error (.corrupt rirDataLine) ∧
      parse_file_lines rirFileExact = .ok ()) :=
  ⟨rfl, claim_C8_declared_count rirFileExtraLine [rirDataLine] rfl⟩

/-- C8 counterexample: a well-formed file whose declared counts are fully
consumed and which is followed only by a comment line raises the corrupt-input
error previewing that comment: eof_check reads the next raw line without
skipping comments, refuting the original claim that trailing comment lines do
not abort the parse. -/
theorem claim_C8_declared_count_cex :
    parse_file_lines rirFileTrailingComment
      = .error (.corrupt "# trailing comment".data) := rfl
